import Mathlib

/-!
Verification of the priority-ordered transaction mempool
(`priorityQueue` in the txpool package of this repository).

The Go code is embedded shallowly:
* Go `uint64` arithmetic is `Nat` with an explicit `% 2 ^ 64` at every
  operation that can wrap (`uadd`, `usub`).
* Go maps (`poolWeights`, `weightLimits`, per-transaction weight maps) are
  association lists read with a zero default, exactly like a Go map read.
* The `google/btree` priority index is modelled as a list kept sorted in
  ascending `item.Less` order; `ReplaceOrInsert`, `Delete`, `Min`,
  `Descend` and `DescendLessOrEqual` are transcribed against that model.
* The `sync.Mutex` is dropped: every public operation is a pure function
  from the queue state to a result and a new state.
* Go `panic` is modelled by returning `none` (for the removal path) or a
  dedicated `panicked` result (for `Add`), so that no successor state
  exists for a panicking call.
-/

namespace OasisTxPool

/-- Weight dimensions are named axes (Go: `type Weight string`). -/
abbrev Weight := String

/-- Go constant `transaction.WeightCount`. -/
def WeightCount : Weight := "count"

/-- Go constant `transaction.WeightSizeBytes`. -/
def WeightSizeBytes : Weight := "size_bytes"

/-- Go constant `transaction.WeightConsensusMessages`. -/
def WeightConsensusMessages : Weight := "consensus_messages"

/-- The modulus of Go `uint64` arithmetic. -/
def U64 : Nat := 2 ^ 64

/-- Go `uint64` addition (wraps at `2 ^ 64`). -/
def uadd (a b : Nat) : Nat := (a + b) % U64

/-- Go `uint64` subtraction (wraps at `2 ^ 64`). -/
def usub (a b : Nat) : Nat := (a + (U64 - b % U64)) % U64

/-- Modelled from the spec: the transaction handle produced outside this
package (`transaction.CheckedTransaction` is not under `src/`).  Per the
spec it is an immutable record of a fingerprint (a fixed-width byte string
with a total lexicographic order, modelled as `Nat`), an unsigned priority,
and a weight vector (a Go map from dimension to unsigned integer, modelled
as an association list). -/
structure CheckedTransaction where
  hash : Nat
  priority : Nat
  weights : List (Weight × Nat)
  deriving DecidableEq

/-- Association-list lookup, modelling a Go map read (`v, ok := m[k]`). -/
def alookup : List (Weight × Nat) → Weight → Option Nat
  | [], _ => none
  | (k2, v) :: r, k => if k2 = k then some v else alookup r k

/-- Go map read with zero default (`m[k]`). -/
def aget (m : List (Weight × Nat)) (k : Weight) : Nat :=
  (alookup m k).getD 0

/-- Go map write (`m[k] = v`): replaces the binding or inserts a new one. -/
def aset : List (Weight × Nat) → Weight → Nat → List (Weight × Nat)
  | [], k, v => [(k, v)]
  | (k2, v2) :: r, k, v => if k2 = k then (k, v) :: r else (k2, v2) :: aset r k v

/-- Go: `for k, v := range w { m[k] += v }` with `uint64` addition. -/
def addWeights (m : List (Weight × Nat)) : List (Weight × Nat) → List (Weight × Nat)
  | [] => m
  | (k, v) :: r => addWeights (aset m k (uadd (aget m k) v)) r

/-- Go: `for k, v := range w { m[k] -= v }` with `uint64` subtraction. -/
def subWeights (m : List (Weight × Nat)) : List (Weight × Nat) → List (Weight × Nat)
  | [] => m
  | (k, v) :: r => subWeights (aset m k (usub (aget m k) v)) r

/-- Go `tx.Weight(w)`: weight-map read with zero default. -/
def txWeight (tx : CheckedTransaction) (w : Weight) : Nat :=
  (alookup tx.weights w).getD 0

/-- The btree order on items (`func (i item) Less`): by priority, with ties
broken by lexicographic fingerprint comparison. -/
def ItemLt (a b : CheckedTransaction) : Prop :=
  a.priority < b.priority ∨ (a.priority = b.priority ∧ a.hash < b.hash)

instance instDecidableItemLt (a b : CheckedTransaction) : Decidable (ItemLt a b) := by
  unfold ItemLt; infer_instance

/-- btree `ReplaceOrInsert` on the sorted-list model: insert `x` at its
position, replacing an element that is `Less`-equal to it. -/
def replaceOrInsert : List CheckedTransaction → CheckedTransaction → List CheckedTransaction
  | [], x => [x]
  | y :: r, x =>
    if ItemLt x y then x :: y :: r
    else if ItemLt y x then y :: replaceOrInsert r x
    else x :: r

/-- btree `Delete` on the sorted-list model: remove the element that is
`Less`-equal to `x`, if present. -/
def btreeDelete : List CheckedTransaction → CheckedTransaction → List CheckedTransaction
  | [], _ => []
  | y :: r, x =>
    if ItemLt x y then y :: r
    else if ItemLt y x then y :: btreeDelete r x
    else r

/-- The `priorityQueue` state.  `priorityIndex` is the btree (a list sorted
ascending in `ItemLt`); `transactions` is the Go map from fingerprint to
item, modelled as the list of stored transactions (keys are the hashes). -/
structure PriorityQueue where
  priorityIndex : List CheckedTransaction
  transactions : List CheckedTransaction
  maxTxPoolSize : Nat
  poolWeights : List (Weight × Nat)
  weightLimits : List (Weight × Nat)
  lowestPriority : Nat
  deriving DecidableEq

/-- The error kinds surfaced by `Add`. -/
inductive AddError where
  | poolFull
  | oversize
  | duplicate
  deriving DecidableEq

/-- Result of `Add`: success with the new state, an error return carrying
the state at the return point, or one of the consistency panics. -/
inductive AddResult where
  | ok (q : PriorityQueue)
  | rejected (e : AddError) (q : PriorityQueue)
  | panicked
  deriving DecidableEq

/-- Go `q.transactions[tx.Hash()] = item`. -/
def mapSet (m : List CheckedTransaction) (tx : CheckedTransaction) : List CheckedTransaction :=
  if m.any (fun t => t.hash == tx.hash) then
    m.map (fun t => if t.hash == tx.hash then tx else t)
  else m ++ [tx]

/-- One iteration of the removal loop in `removeTxsLocked`: skip items whose
hash is no longer in the map, otherwise delete from both indices and
subtract the weights. -/
def removeOne (q : PriorityQueue) (it : CheckedTransaction) : PriorityQueue :=
  if q.transactions.any (fun t => t.hash == it.hash) then
    { q with transactions := q.transactions.filter (fun t => t.hash != it.hash),
             priorityIndex := btreeDelete q.priorityIndex it,
             poolWeights := subWeights q.poolWeights it.weights }
  else q

/-- `removeTxsLocked`: remove the items, recompute `lowestPriority` from the
index minimum when at least one item was passed, then run the two
consistency checks; `none` models the panic. -/
def removeTxsLocked (q : PriorityQueue) (items : List CheckedTransaction) :
    Option PriorityQueue :=
  let q1 := items.foldl removeOne q
  let q2 :=
    if items.length > 0 then
      match q1.priorityIndex.head? with
      | some lpi => { q1 with lowestPriority := lpi.priority }
      | none => { q1 with lowestPriority := 0 }
    else q1
  if q2.transactions.length = q2.priorityIndex.length ∧
     q2.transactions.length = aget q2.poolWeights WeightCount then some q2
  else none

/-- `checkTxLocked`: weight-limit check (the `Oversize` error), then the
duplicate check. -/
def checkTxLocked (q : PriorityQueue) (tx : CheckedTransaction) : Option AddError :=
  if q.weightLimits.any (fun p => decide (p.2 < txWeight tx p.1)) then some .oversize
  else if q.transactions.any (fun t => t.hash == tx.hash) then some .duplicate
  else none

/-- `Add`: capacity check against the cached `lowestPriority`, validation,
eviction of the index minimum when full, insertion into both indices,
weight accounting, `lowestPriority` update, and the two consistency
panics. -/
def Add (q : PriorityQueue) (tx : CheckedTransaction) : AddResult :=
  let needsPop := aget q.poolWeights WeightCount ≥ q.maxTxPoolSize
  if needsPop ∧ tx.priority ≤ q.lowestPriority then .rejected .poolFull q
  else
    match checkTxLocked q tx with
    | some e => .rejected e q
    | none =>
      let popped : Option PriorityQueue :=
        if needsPop then
          match q.priorityIndex.head? with
          | some lpi => removeTxsLocked q [lpi]
          | none => some q
        else some q
      match popped with
      | none => .panicked
      | some q1 =>
        let q2 : PriorityQueue :=
          { q1 with priorityIndex := replaceOrInsert q1.priorityIndex tx,
                    transactions := mapSet q1.transactions tx,
                    poolWeights := addWeights q1.poolWeights tx.weights }
        let q3 := if tx.priority < q2.lowestPriority then
            { q2 with lowestPriority := tx.priority } else q2
        if q3.transactions.length = q3.priorityIndex.length ∧
           q3.transactions.length = aget q3.poolWeights WeightCount then .ok q3
        else .panicked

/-- The `minWeights` map literal in `GetBatch`. -/
def minWeights : List (Weight × Nat) :=
  [(WeightCount, 1), (WeightSizeBytes, 10), (WeightConsensusMessages, 0)]

/-- Outcome of the per-dimension loop over `weightLimits` for one candidate
in `GetBatch`: drop the tx from the pool, stop the whole iteration, skip
this tx, or accept it into the batch. -/
inductive DimOutcome where
  | drop
  | stop
  | skip
  | fits
  deriving DecidableEq

/-- The inner `for w, limit := range q.weightLimits` loop of the `GetBatch`
iterator body. -/
def gbCheckItem (bw : List (Weight × Nat)) (tx : CheckedTransaction) :
    List (Weight × Nat) → DimOutcome
  | [] => .fits
  | (w, limit) :: rest =>
    let batchWeight := aget bw w
    let txW := txWeight tx w
    if limit < txW then .drop
    else if usub limit batchWeight < aget minWeights w then .stop
    else if limit < uadd batchWeight txW then .skip
    else gbCheckItem bw tx rest

/-- Go: `for w, val := range item.tx.Weights() { if _, ok := batchWeights[w]; ok
{ batchWeights[w] += val } }`. -/
def bwAdd (bw : List (Weight × Nat)) : List (Weight × Nat) → List (Weight × Nat)
  | [] => bw
  | (k, v) :: r =>
    bwAdd (match alookup bw k with
           | some bv => aset bw k (uadd bv v)
           | none => bw) r

/-- The `q.priorityIndex.Descend` iteration of `GetBatch`, over the items in
descending order, threading the batch, the batch weights and the items
marked for removal. -/
def gbLoop (wl : List (Weight × Nat)) :
    List CheckedTransaction → List CheckedTransaction → List (Weight × Nat) →
    List CheckedTransaction → List CheckedTransaction × List CheckedTransaction
  | [], batch, _, toRemove => (batch, toRemove)
  | it :: rest, batch, bw, toRemove =>
    match gbCheckItem bw it wl with
    | .drop => gbLoop wl rest batch bw (toRemove ++ [it])
    | .stop => (batch, toRemove)
    | .skip => gbLoop wl rest batch bw toRemove
    | .fits => gbLoop wl rest (batch ++ [it]) (bwAdd bw it.weights) toRemove

/-- `GetBatch(force)`: readiness check, descending weight-packing walk, and
removal of the transactions discovered to be permanently oversize. -/
def GetBatch (q : PriorityQueue) (force : Bool) :
    Option (List CheckedTransaction × PriorityQueue) :=
  let weightLimitReached :=
    q.weightLimits.any (fun p => decide (aget q.poolWeights p.1 ≥ p.2))
  if !weightLimitReached && !force then some ([], q)
  else
    let bw0 := q.weightLimits.map (fun p => (p.1, 0))
    let res := gbLoop q.weightLimits q.priorityIndex.reverse [] bw0 []
    match removeTxsLocked q res.2 with
    | some q2 => some (res.1, q2)
    | none => none

/-- Go `txHash.Equal(offset)` where `offset` is a possibly-nil pointer:
false on nil, fingerprint comparison otherwise. -/
def hashEqualOpt (h : Nat) (offset : Option Nat) : Bool :=
  match offset with
  | some o => h == o
  | none => false

/-- The `DescendLessOrEqual` iterator body of `GetPrioritizedBatch`:
oversize marking, the exclusive-offset skip, then append and the post-append
`uint32(len(batch)) >= limit` check. -/
def gpbLoop (offset : Option Nat) (limit : Nat) (wl : List (Weight × Nat)) :
    List CheckedTransaction → List CheckedTransaction → List CheckedTransaction →
    List CheckedTransaction × List CheckedTransaction
  | [], batch, toRemove => (batch, toRemove)
  | it :: rest, batch, toRemove =>
    if wl.any (fun p => decide (p.2 < txWeight it p.1)) then
      gpbLoop offset limit wl rest batch (toRemove ++ [it])
    else if hashEqualOpt it.hash offset then
      gpbLoop offset limit wl rest batch toRemove
    else if limit ≤ (batch.length + 1) % 2 ^ 32 then (batch ++ [it], toRemove)
    else gpbLoop offset limit wl rest (batch ++ [it]) toRemove

/-- `GetPrioritizedBatch(offset, limit)`: resolve the offset in the hash
index (returning nil when absent), walk the btree from the offset (or the
maximum) downwards, and remove the oversize items found on the way. -/
def GetPrioritizedBatch (q : PriorityQueue) (offset : Option Nat) (limit : Nat) :
    Option (List CheckedTransaction × PriorityQueue) :=
  match offset with
  | some o =>
    match q.transactions.find? (fun t => t.hash == o) with
    | none => some ([], q)
    | some offItem =>
      let items := (q.priorityIndex.filter (fun i => !decide (ItemLt offItem i))).reverse
      let res := gpbLoop offset limit q.weightLimits items [] []
      match removeTxsLocked q res.2 with
      | some q2 => some (res.1, q2)
      | none => none
  | none =>
    let res := gpbLoop offset limit q.weightLimits q.priorityIndex.reverse [] []
    match removeTxsLocked q res.2 with
    | some q2 => some (res.1, q2)
    | none => none

/-- The item-collection loop of `RemoveTxBatch`: look each fingerprint up
in the map, appending the items found. -/
def collectItems (q : PriorityQueue) :
    List Nat → List CheckedTransaction → List CheckedTransaction
  | [], acc => acc
  | h :: rest, acc =>
    match q.transactions.find? (fun t => t.hash == h) with
    | some it => collectItems q rest (acc ++ [it])
    | none => collectItems q rest acc

/-- `RemoveTxBatch`: look the hashes up in the map and run the common
removal path on the items found. -/
def RemoveTxBatch (q : PriorityQueue) (batch : List Nat) : Option PriorityQueue :=
  removeTxsLocked q (collectItems q batch [])

/-- `IsQueued`: membership test against the hash index. -/
def IsQueued (q : PriorityQueue) (h : Nat) : Bool :=
  q.transactions.any (fun t => t.hash == h)

/-- `Size`: returns `poolWeights[count]`. -/
def Size (q : PriorityQueue) : Nat := aget q.poolWeights WeightCount

/-- `UpdateMaxPoolSize`: sets the cap; nothing is evicted eagerly. -/
def UpdateMaxPoolSize (q : PriorityQueue) (n : Nat) : PriorityQueue :=
  { q with maxTxPoolSize := n }

/-- `UpdateWeightLimits`: replaces the whole limit map; nothing is evicted
eagerly. -/
def UpdateWeightLimits (q : PriorityQueue) (wl : List (Weight × Nat)) : PriorityQueue :=
  { q with weightLimits := wl }

/-- `Clear`: drops both indices and resets the weights and the cached
minimum. -/
def Clear (q : PriorityQueue) : PriorityQueue :=
  { q with priorityIndex := [], transactions := [], poolWeights := [],
           lowestPriority := 0 }

/-- `newPriorityQueue`. -/
def newPriorityQueue (maxPoolSize : Nat) (wl : List (Weight × Nat)) : PriorityQueue :=
  { priorityIndex := [], transactions := [], maxTxPoolSize := maxPoolSize,
    poolWeights := [], weightLimits := wl, lowestPriority := 0 }

/-- A transaction as the Go code can actually receive it: its weight vector
comes from a Go map, so the keys are distinct, and the transaction source
contract guarantees `weights[count] = 1`. -/
def wfTx (tx : CheckedTransaction) : Prop :=
  (tx.weights.map Prod.fst).Nodup ∧ txWeight tx WeightCount = 1

/-! ### Arithmetic lemmas for the `uint64` model -/

theorem U64_pos : 0 < U64 := by decide

theorem uadd_lt (a b : Nat) : uadd a b < U64 := Nat.mod_lt _ U64_pos

theorem usub_lt (a b : Nat) : usub a b < U64 := Nat.mod_lt _ U64_pos

theorem uadd_le (a b : Nat) : uadd a b ≤ a + b := Nat.mod_le _ _

theorem uadd_of_lt (a b : Nat) (h : a + b < U64) : uadd a b = a + b :=
  Nat.mod_eq_of_lt h

theorem uadd_sum_mod (a b : Nat) : uadd (a % U64) b = (a + b) % U64 := by
  unfold uadd
  rw [Nat.mod_add_mod]

theorem usub_uadd_cancel (a b : Nat) (ha : a < U64) : usub (uadd a b) b = a := by
  have hU : U64 = 18446744073709551616 := by norm_num [U64]
  unfold usub uadd
  rw [hU] at ha ⊢
  omega

theorem usub_of_le (a b : Nat) (hba : b ≤ a) (ha : a < U64) : usub a b = a - b := by
  have hU : U64 = 18446744073709551616 := by norm_num [U64]
  unfold usub
  rw [hU] at ha ⊢
  omega

/-! ### Association-list lemmas -/

theorem alookup_aset_self (m : List (Weight × Nat)) (k : Weight) (v : Nat) :
    alookup (aset m k v) k = some v := by
  induction m with
  | nil => simp [aset, alookup]
  | cons p r ih =>
    obtain ⟨k2, v2⟩ := p
    by_cases h : k2 = k
    · simp [aset, h, alookup]
    · simp [aset, h, alookup, ih]

theorem alookup_aset_ne (m : List (Weight × Nat)) (k k2 : Weight) (v : Nat)
    (h : k ≠ k2) : alookup (aset m k v) k2 = alookup m k2 := by
  induction m with
  | nil =>
    simp only [aset, alookup]
    rw [if_neg h]
  | cons p r ih =>
    obtain ⟨k1, v1⟩ := p
    by_cases h1 : k1 = k
    · subst h1
      simp only [aset, if_pos rfl, alookup]
      rw [if_neg h, if_neg h]
    · simp only [aset, if_neg h1, alookup]
      by_cases h2 : k1 = k2
      · rw [if_pos h2, if_pos h2]
      · rw [if_neg h2, if_neg h2, ih]

theorem aget_aset_self (m : List (Weight × Nat)) (k : Weight) (v : Nat) :
    aget (aset m k v) k = v := by
  unfold aget; rw [alookup_aset_self]; rfl

theorem aget_aset_ne (m : List (Weight × Nat)) (k k2 : Weight) (v : Nat)
    (h : k ≠ k2) : aget (aset m k v) k2 = aget m k2 := by
  unfold aget; rw [alookup_aset_ne m k k2 v h]

theorem alookup_eq_none_of_not_mem (l : List (Weight × Nat)) (k : Weight)
    (h : k ∉ l.map Prod.fst) : alookup l k = none := by
  induction l with
  | nil => rfl
  | cons p r ih =>
    obtain ⟨k1, v1⟩ := p
    simp only [List.map_cons, List.mem_cons] at h
    push_neg at h
    simp only [alookup]
    rw [if_neg (fun he : k1 = k => h.1 he.symm), ih h.2]

/-! ### Weight-accumulation lemmas -/

theorem alookup_addWeights_none (tw : List (Weight × Nat)) (m : List (Weight × Nat))
    (k : Weight) (h : alookup tw k = none) :
    alookup (addWeights m tw) k = alookup m k := by
  induction tw generalizing m with
  | nil => rfl
  | cons p r ih =>
    obtain ⟨k1, v1⟩ := p
    simp only [alookup] at h
    by_cases hk : k1 = k
    · rw [if_pos hk] at h; cases h
    · rw [if_neg hk] at h
      unfold addWeights
      rw [ih _ h, alookup_aset_ne _ _ _ _ hk]

theorem alookup_addWeights_some (tw : List (Weight × Nat)) (m : List (Weight × Nat))
    (k : Weight) (v : Nat) (hnd : (tw.map Prod.fst).Nodup) (h : alookup tw k = some v) :
    alookup (addWeights m tw) k = some (uadd (aget m k) v) := by
  induction tw generalizing m with
  | nil => cases h
  | cons p r ih =>
    obtain ⟨k1, v1⟩ := p
    simp only [List.map_cons, List.nodup_cons] at hnd
    simp only [alookup] at h
    by_cases hk : k1 = k
    · rw [if_pos hk] at h
      injection h with hv
      subst hv; subst hk
      unfold addWeights
      rw [alookup_addWeights_none _ _ _
            (alookup_eq_none_of_not_mem _ _ hnd.1),
          alookup_aset_self]
    · rw [if_neg hk] at h
      unfold addWeights
      rw [ih _ hnd.2 h, aget_aset_ne _ _ _ _ hk]

theorem aget_addWeights_lt (tw : List (Weight × Nat)) (m : List (Weight × Nat))
    (hm : ∀ j, aget m j < U64) : ∀ j, aget (addWeights m tw) j < U64 := by
  induction tw generalizing m with
  | nil => exact hm
  | cons p r ih =>
    obtain ⟨k1, v1⟩ := p
    unfold addWeights
    refine ih _ (fun j => ?_)
    by_cases hj : k1 = j
    · subst hj; rw [aget_aset_self]; exact uadd_lt _ _
    · rw [aget_aset_ne _ _ _ _ hj]; exact hm j

theorem alookup_subWeights_none (tw : List (Weight × Nat)) (m : List (Weight × Nat))
    (k : Weight) (h : alookup tw k = none) :
    alookup (subWeights m tw) k = alookup m k := by
  induction tw generalizing m with
  | nil => rfl
  | cons p r ih =>
    obtain ⟨k1, v1⟩ := p
    simp only [alookup] at h
    by_cases hk : k1 = k
    · rw [if_pos hk] at h; cases h
    · rw [if_neg hk] at h
      unfold subWeights
      rw [ih _ h, alookup_aset_ne _ _ _ _ hk]

theorem alookup_subWeights_some (tw : List (Weight × Nat)) (m : List (Weight × Nat))
    (k : Weight) (v : Nat) (hnd : (tw.map Prod.fst).Nodup) (h : alookup tw k = some v) :
    alookup (subWeights m tw) k = some (usub (aget m k) v) := by
  induction tw generalizing m with
  | nil => cases h
  | cons p r ih =>
    obtain ⟨k1, v1⟩ := p
    simp only [List.map_cons, List.nodup_cons] at hnd
    simp only [alookup] at h
    by_cases hk : k1 = k
    · rw [if_pos hk] at h
      injection h with hv
      subst hv; subst hk
      unfold subWeights
      rw [alookup_subWeights_none _ _ _
            (alookup_eq_none_of_not_mem _ _ hnd.1),
          alookup_aset_self]
    · rw [if_neg hk] at h
      unfold subWeights
      rw [ih _ hnd.2 h, aget_aset_ne _ _ _ _ hk]

theorem aget_subWeights_lt (tw : List (Weight × Nat)) (m : List (Weight × Nat))
    (hm : ∀ j, aget m j < U64) : ∀ j, aget (subWeights m tw) j < U64 := by
  induction tw generalizing m with
  | nil => exact hm
  | cons p r ih =>
    obtain ⟨k1, v1⟩ := p
    unfold subWeights
    refine ih _ (fun j => ?_)
    by_cases hj : k1 = j
    · subst hj; rw [aget_aset_self]; exact usub_lt _ _
    · rw [aget_aset_ne _ _ _ _ hj]; exact hm j

theorem aget_addWeights_some (tw m : List (Weight × Nat)) (k : Weight) (v : Nat)
    (hnd : (tw.map Prod.fst).Nodup) (h : alookup tw k = some v) :
    aget (addWeights m tw) k = uadd (aget m k) v := by
  unfold aget; rw [alookup_addWeights_some tw m k v hnd h]; rfl

theorem aget_addWeights_none (tw m : List (Weight × Nat)) (k : Weight)
    (h : alookup tw k = none) : aget (addWeights m tw) k = aget m k := by
  unfold aget; rw [alookup_addWeights_none tw m k h]

theorem aget_subWeights_some (tw m : List (Weight × Nat)) (k : Weight) (v : Nat)
    (hnd : (tw.map Prod.fst).Nodup) (h : alookup tw k = some v) :
    aget (subWeights m tw) k = usub (aget m k) v := by
  unfold aget; rw [alookup_subWeights_some tw m k v hnd h]; rfl

theorem aget_subWeights_none (tw m : List (Weight × Nat)) (k : Weight)
    (h : alookup tw k = none) : aget (subWeights m tw) k = aget m k := by
  unfold aget; rw [alookup_subWeights_none tw m k h]

theorem aget_sub_add_cancel (tw m : List (Weight × Nat)) (k : Weight)
    (hnd : (tw.map Prod.fst).Nodup) (hm : aget m k < U64) :
    aget (subWeights (addWeights m tw) tw) k = aget m k := by
  cases h : alookup tw k with
  | none => rw [aget_subWeights_none tw _ k h, aget_addWeights_none tw m k h]
  | some v =>
    rw [aget_subWeights_some tw _ k v hnd h, aget_addWeights_some tw m k v hnd h]
    exact usub_uadd_cancel _ _ hm

/-! ### Order lemmas for the btree item order -/

theorem itemLt_trans {a b c : CheckedTransaction} (h1 : ItemLt a b) (h2 : ItemLt b c) :
    ItemLt a c := by
  unfold ItemLt at *; omega

theorem itemLt_irrefl (a : CheckedTransaction) : ¬ ItemLt a a := by
  unfold ItemLt; omega

theorem itemLt_asymm {a b : CheckedTransaction} (h : ItemLt a b) : ¬ ItemLt b a := by
  unfold ItemLt at *; omega

theorem itemLt_connex {a b : CheckedTransaction} (h1 : ¬ ItemLt a b) (h2 : ¬ ItemLt b a) :
    a.priority = b.priority ∧ a.hash = b.hash := by
  unfold ItemLt at *; omega

theorem itemLt_of_keyEq {a b c : CheckedTransaction} (hp : a.priority = b.priority)
    (hh : a.hash = b.hash) (h : ItemLt a c) : ItemLt b c := by
  unfold ItemLt at *; omega

theorem itemLt_priority_le {a b : CheckedTransaction} (h : ItemLt a b) :
    a.priority ≤ b.priority := by
  unfold ItemLt at h; omega

theorem not_keyEq_of_itemLt {a b : CheckedTransaction} (h : ItemLt a b) :
    ¬ (a.priority = b.priority ∧ a.hash = b.hash) := by
  unfold ItemLt at h; omega

/-! ### Lemmas about the sorted-list btree model -/

theorem mem_replaceOrInsert {l : List CheckedTransaction} {x a : CheckedTransaction}
    (h : a ∈ replaceOrInsert l x) : a = x ∨ a ∈ l := by
  induction l with
  | nil =>
    simp only [replaceOrInsert, List.mem_singleton] at h
    exact .inl h
  | cons y r ih =>
    unfold replaceOrInsert at h
    by_cases h1 : ItemLt x y
    · rw [if_pos h1] at h
      rcases List.mem_cons.mp h with h2 | h2
      · exact .inl h2
      · exact .inr h2
    · rw [if_neg h1] at h
      by_cases h2 : ItemLt y x
      · rw [if_pos h2] at h
        rcases List.mem_cons.mp h with h3 | h3
        · exact .inr (h3 ▸ List.mem_cons_self y r)
        · rcases ih h3 with h4 | h4
          · exact .inl h4
          · exact .inr (List.mem_cons_of_mem _ h4)
      · rw [if_neg h2] at h
        rcases List.mem_cons.mp h with h3 | h3
        · exact .inl h3
        · exact .inr (List.mem_cons_of_mem _ h3)

theorem replaceOrInsert_pairwise {l : List CheckedTransaction} (x : CheckedTransaction)
    (hs : l.Pairwise ItemLt) : (replaceOrInsert l x).Pairwise ItemLt := by
  induction l with
  | nil => simp [replaceOrInsert]
  | cons y r ih =>
    rcases List.pairwise_cons.mp hs with ⟨hy, hr⟩
    by_cases h1 : ItemLt x y
    · rw [replaceOrInsert, if_pos h1]
      refine List.pairwise_cons.mpr ⟨?_, hs⟩
      intro z hz
      rcases List.mem_cons.mp hz with rfl | hz2
      · exact h1
      · exact itemLt_trans h1 (hy z hz2)
    · by_cases h2 : ItemLt y x
      · rw [replaceOrInsert, if_neg h1, if_pos h2]
        refine List.pairwise_cons.mpr ⟨?_, ih hr⟩
        intro z hz
        rcases mem_replaceOrInsert hz with rfl | hz2
        · exact h2
        · exact hy z hz2
      · rcases itemLt_connex h1 h2 with ⟨hp, hh⟩
        rw [replaceOrInsert, if_neg h1, if_neg h2]
        refine List.pairwise_cons.mpr ⟨?_, hr⟩
        intro z hz
        exact itemLt_of_keyEq hp.symm hh.symm (hy z hz)

theorem replaceOrInsert_perm {l : List CheckedTransaction} (x : CheckedTransaction)
    (hnk : ∀ y ∈ l, ¬ (x.priority = y.priority ∧ x.hash = y.hash)) :
    (replaceOrInsert l x).Perm (x :: l) := by
  induction l with
  | nil => exact List.Perm.refl _
  | cons y r ih =>
    by_cases h1 : ItemLt x y
    · rw [replaceOrInsert, if_pos h1]
    · by_cases h2 : ItemLt y x
      · rw [replaceOrInsert, if_neg h1, if_pos h2]
        have hr := ih (fun z hz => hnk z (List.mem_cons_of_mem _ hz))
        exact (hr.cons y).trans (List.Perm.swap x y r)
      · exact absurd (itemLt_connex h1 h2) (hnk y (List.mem_cons_self y r))

theorem replaceOrInsert_ne_nil (l : List CheckedTransaction) (x : CheckedTransaction) :
    replaceOrInsert l x ≠ [] := by
  cases l with
  | nil => simp [replaceOrInsert]
  | cons y r =>
    unfold replaceOrInsert
    by_cases h1 : ItemLt x y
    · rw [if_pos h1]; simp
    · rw [if_neg h1]
      by_cases h2 : ItemLt y x
      · rw [if_pos h2]; simp
      · rw [if_neg h2]; simp

theorem btreeDelete_sublist (l : List CheckedTransaction) (x : CheckedTransaction) :
    (btreeDelete l x).Sublist l := by
  induction l with
  | nil => exact List.Sublist.refl _
  | cons y r ih =>
    unfold btreeDelete
    by_cases h1 : ItemLt x y
    · rw [if_pos h1]
    · rw [if_neg h1]
      by_cases h2 : ItemLt y x
      · rw [if_pos h2]
        exact ih.cons₂ y
      · rw [if_neg h2]
        exact (List.Sublist.refl r).cons y

theorem btreeDelete_eq_filter {l : List CheckedTransaction} (x : CheckedTransaction)
    (hs : l.Pairwise ItemLt) :
    btreeDelete l x
      = l.filter (fun y => !decide (x.priority = y.priority ∧ x.hash = y.hash)) := by
  induction l with
  | nil => rfl
  | cons y r ih =>
    rcases List.pairwise_cons.mp hs with ⟨hy, hr⟩
    by_cases h1 : ItemLt x y
    · rw [btreeDelete, if_pos h1]
      refine (List.filter_eq_self.mpr ?_).symm
      intro z hz
      simp only [Bool.not_eq_true', decide_eq_false_iff_not]
      rcases List.mem_cons.mp hz with rfl | hz2
      · exact not_keyEq_of_itemLt h1
      · exact not_keyEq_of_itemLt (itemLt_trans h1 (hy z hz2))
    · by_cases h2 : ItemLt y x
      · rw [btreeDelete, if_neg h1, if_pos h2, List.filter_cons, ih hr]
        have hky : (!decide (x.priority = y.priority ∧ x.hash = y.hash)) = true := by
          have := not_keyEq_of_itemLt h2
          simp only [Bool.not_eq_true', decide_eq_false_iff_not]
          exact fun hk => this ⟨hk.1.symm, hk.2.symm⟩
        rw [hky]
        simp
      · rcases itemLt_connex h1 h2 with ⟨hp, hh⟩
        rw [btreeDelete, if_neg h1, if_neg h2, List.filter_cons]
        have hky : (!decide (x.priority = y.priority ∧ x.hash = y.hash)) = false := by
          simp [hp, hh]
        rw [hky]
        simp only [Bool.false_eq_true, if_false]
        refine (List.filter_eq_self.mpr ?_).symm
        intro z hz
        simp only [Bool.not_eq_true', decide_eq_false_iff_not]
        exact not_keyEq_of_itemLt (itemLt_of_keyEq hp.symm hh.symm (hy z hz))

/-! ### Hash-uniqueness lemmas -/

theorem eq_of_hash_eq {l : List CheckedTransaction}
    (hnd : (l.map CheckedTransaction.hash).Nodup) {a b : CheckedTransaction}
    (ha : a ∈ l) (hb : b ∈ l) (h : a.hash = b.hash) : a = b := by
  induction l with
  | nil => cases ha
  | cons y r ih =>
    simp only [List.map_cons, List.nodup_cons] at hnd
    rcases List.mem_cons.mp ha with rfl | ha2
    · rcases List.mem_cons.mp hb with rfl | hb2
      · rfl
      · exact absurd (h ▸ List.mem_map_of_mem CheckedTransaction.hash hb2) hnd.1
    · rcases List.mem_cons.mp hb with rfl | hb2
      · exact absurd (h ▸ List.mem_map_of_mem CheckedTransaction.hash ha2) hnd.1
      · exact ih hnd.2 ha2 hb2

theorem filter_hash_eq_self {l : List CheckedTransaction} {h0 : Nat}
    (h : ∀ t ∈ l, t.hash ≠ h0) : l.filter (fun t => t.hash != h0) = l := by
  refine List.filter_eq_self.mpr ?_
  intro t ht
  simpa using h t ht

theorem length_filter_hash {l : List CheckedTransaction} {a : CheckedTransaction}
    (hnd : (l.map CheckedTransaction.hash).Nodup) (ha : a ∈ l) :
    (l.filter (fun t => t.hash != a.hash)).length = l.length - 1 := by
  induction l with
  | nil => cases ha
  | cons y r ih =>
    simp only [List.map_cons, List.nodup_cons] at hnd
    by_cases hy : y.hash = a.hash
    · have hfr : r.filter (fun t => t.hash != a.hash) = r := by
        refine filter_hash_eq_self ?_
        intro t ht he
        exact hnd.1 ((hy ▸ he ▸ rfl : y.hash = t.hash) ▸
          List.mem_map_of_mem CheckedTransaction.hash ht)
      rw [List.filter_cons]
      have hky : (y.hash != a.hash) = false := by simp [hy]
      rw [hky]
      simp only [Bool.false_eq_true, if_false, hfr, List.length_cons]
      omega
    · have har : a ∈ r := by
        rcases List.mem_cons.mp ha with rfl | h2
        · exact absurd rfl hy
        · exact h2
      have hr1 : 0 < r.length := List.length_pos.mpr (List.ne_nil_of_mem har)
      rw [List.filter_cons]
      have hky : (y.hash != a.hash) = true := by simp [hy]
      rw [hky]
      simp only [if_true, List.length_cons, ih hnd.2 har]
      omega

/-! ### The queue well-formedness invariant -/

/-- The structural part of the queue invariant: the btree is sorted, both
indices hold the same transactions, fingerprints are unique, stored
transactions are well formed, and `pool_weights[count]` tracks the map
size, with all `uint64` values in range. -/
structure WFCore (q : PriorityQueue) : Prop where
  sorted : q.priorityIndex.Pairwise ItemLt
  perm : q.transactions.Perm q.priorityIndex
  hashNodup : (q.transactions.map CheckedTransaction.hash).Nodup
  txsWf : ∀ t ∈ q.transactions, wfTx t
  countEq : aget q.poolWeights WeightCount = q.transactions.length
  pwBound : ∀ k, aget q.poolWeights k < U64
  maxBound : q.maxTxPoolSize < U64

/-- The full queue invariant: the structural part plus the facts the code
maintains about the cached `lowestPriority`: it is 0 on an empty index and
a lower bound on every stored priority. -/
structure WF (q : PriorityQueue) : Prop where
  core : WFCore q
  lowestEmpty : q.priorityIndex = [] → q.lowestPriority = 0
  lowestLe : ∀ t ∈ q.priorityIndex, q.lowestPriority ≤ t.priority

theorem idx_hash_nodup {q : PriorityQueue} (hc : WFCore q) :
    (q.priorityIndex.map CheckedTransaction.hash).Nodup :=
  ((hc.perm.map CheckedTransaction.hash).nodup_iff).mp hc.hashNodup

theorem wfTx_count_lookup {tx : CheckedTransaction} (h : wfTx tx) :
    alookup tx.weights WeightCount = some 1 := by
  rcases h with ⟨hnd, hc⟩
  unfold txWeight at hc
  cases hl : alookup tx.weights WeightCount with
  | none => rw [hl] at hc; exact absurd hc (by decide)
  | some v => rw [hl] at hc; rw [show v = 1 from hc]

theorem sorted_head_le {a : CheckedTransaction} {rest : List CheckedTransaction}
    (hs : (a :: rest).Pairwise ItemLt) :
    ∀ t ∈ a :: rest, a.priority ≤ t.priority := by
  intro t ht
  rcases List.mem_cons.mp ht with rfl | ht2
  · exact le_refl _
  · exact itemLt_priority_le ((List.pairwise_cons.mp hs).1 t ht2)

/-! ### Preservation of the invariant through the removal path -/

theorem removeOne_core (q : PriorityQueue) (it : CheckedTransaction) (hc : WFCore q)
    (hag : ∀ e ∈ q.transactions, e.hash = it.hash → e = it) :
    WFCore (removeOne q it) ∧
    (∀ x ∈ (removeOne q it).transactions, x ∈ q.transactions) ∧
    ((removeOne q it).priorityIndex.Sublist q.priorityIndex) ∧
    (removeOne q it).maxTxPoolSize = q.maxTxPoolSize ∧
    (removeOne q it).weightLimits = q.weightLimits ∧
    (removeOne q it).lowestPriority = q.lowestPriority := by
  by_cases hguard : q.transactions.any (fun t => t.hash == it.hash) = true
  case neg =>
    unfold removeOne
    rw [if_neg hguard]
    exact ⟨hc, fun x hx => hx, List.Sublist.refl _, rfl, rfl, rfl⟩
  case pos =>
    have hit : it ∈ q.transactions := by
      rcases List.any_eq_true.mp hguard with ⟨e, he, heq⟩
      have heq2 : e.hash = it.hash := by simpa using heq
      exact (hag e he heq2) ▸ he
    have hitIdx : it ∈ q.priorityIndex := hc.perm.mem_iff.mp hit
    have hidxNodup := idx_hash_nodup hc
    have hwfit : wfTx it := hc.txsWf it hit
    have hdel : btreeDelete q.priorityIndex it
        = q.priorityIndex.filter (fun t => t.hash != it.hash) := by
      rw [btreeDelete_eq_filter it hc.sorted]
      refine List.filter_congr ?_
      intro z hz
      by_cases hzh : z.hash = it.hash
      · have hz2 : z = it := eq_of_hash_eq hidxNodup hz hitIdx hzh
        subst hz2
        simp
      · have h1 : (z.hash != it.hash) = true := by simpa using hzh
        have h2 : (!decide (it.priority = z.priority ∧ it.hash = z.hash)) = true := by
          simp only [Bool.not_eq_true', decide_eq_false_iff_not]
          exact fun hk => hzh hk.2.symm
        rw [h1, h2]
    unfold removeOne
    rw [if_pos hguard]
    refine ⟨⟨?_, ?_, ?_, ?_, ?_, ?_, ?_⟩, ?_, ?_, rfl, rfl, rfl⟩
    · show (btreeDelete q.priorityIndex it).Pairwise ItemLt
      rw [hdel]
      exact hc.sorted.filter _
    · show (q.transactions.filter (fun t => t.hash != it.hash)).Perm
        (btreeDelete q.priorityIndex it)
      rw [hdel]
      exact hc.perm.filter _
    · exact List.Nodup.sublist ((List.filter_sublist _).map _) hc.hashNodup
    · exact fun t ht => hc.txsWf t (List.mem_of_mem_filter ht)
    · show aget (subWeights q.poolWeights it.weights) WeightCount
        = (q.transactions.filter (fun t => t.hash != it.hash)).length
      have hlen : 0 < q.transactions.length :=
        List.length_pos.mpr (List.ne_nil_of_mem hit)
      have hlt : q.transactions.length < U64 := hc.countEq ▸ hc.pwBound WeightCount
      rw [aget_subWeights_some _ _ _ 1 hwfit.1 (wfTx_count_lookup hwfit), hc.countEq,
        usub_of_le _ _ (by omega) hlt, length_filter_hash hc.hashNodup hit]
    · exact aget_subWeights_lt _ _ hc.pwBound
    · exact hc.maxBound
    · exact fun x hx => List.mem_of_mem_filter hx
    · show (btreeDelete q.priorityIndex it).Sublist q.priorityIndex
      exact btreeDelete_sublist _ _

theorem foldl_removeOne_core (items : List CheckedTransaction) (q : PriorityQueue)
    (hc : WFCore q)
    (hag : ∀ i ∈ items, ∀ e ∈ q.transactions, e.hash = i.hash → e = i) :
    WFCore (items.foldl removeOne q) ∧
    (∀ x ∈ (items.foldl removeOne q).transactions, x ∈ q.transactions) ∧
    ((items.foldl removeOne q).priorityIndex.Sublist q.priorityIndex) ∧
    (items.foldl removeOne q).maxTxPoolSize = q.maxTxPoolSize ∧
    (items.foldl removeOne q).weightLimits = q.weightLimits ∧
    (items.foldl removeOne q).lowestPriority = q.lowestPriority := by
  induction items generalizing q with
  | nil => exact ⟨hc, fun x hx => hx, List.Sublist.refl _, rfl, rfl, rfl⟩
  | cons i rest ih =>
    simp only [List.foldl_cons]
    obtain ⟨hc1, hsub1, hsubIdx1, hmax1, hwl1, hlow1⟩ :=
      removeOne_core q i hc (hag i (List.mem_cons_self i rest))
    obtain ⟨hc2, hsub2, hsubIdx2, hmax2, hwl2, hlow2⟩ :=
      ih (removeOne q i) hc1
        (fun j hj e he heq => hag j (List.mem_cons_of_mem _ hj) e (hsub1 e he) heq)
    exact ⟨hc2, fun x hx => hsub1 x (hsub2 x hx), hsubIdx2.trans hsubIdx1,
      hmax2.trans hmax1, hwl2.trans hwl1, hlow2.trans hlow1⟩

theorem removeTxsLocked_wf (q : PriorityQueue) (items : List CheckedTransaction)
    (hwf : WF q) (hin : ∀ i ∈ items, i ∈ q.transactions) :
    ∃ q2, removeTxsLocked q items = some q2 ∧ WF q2 ∧
      (∀ x ∈ q2.transactions, x ∈ q.transactions) ∧
      q2.maxTxPoolSize = q.maxTxPoolSize ∧ q2.weightLimits = q.weightLimits := by
  have hag : ∀ i ∈ items, ∀ e ∈ q.transactions, e.hash = i.hash → e = i :=
    fun i hi e he heq => eq_of_hash_eq hwf.core.hashNodup he (hin i hi) heq
  obtain ⟨hc1, hsub1, hsubIdx1, hmax1, hwl1, hlow1⟩ :=
    foldl_removeOne_core items q hwf.core hag
  simp only [removeTxsLocked]
  by_cases hlen : items.length > 0
  case neg =>
    have hitems : items = [] := List.length_eq_zero.mp (by omega)
    subst hitems
    rw [if_neg hlen]
    simp only [List.foldl_nil]
    rw [if_pos ⟨hwf.core.perm.length_eq, hwf.core.countEq.symm⟩]
    exact ⟨q, rfl, hwf, fun x hx => hx, rfl, rfl⟩
  case pos =>
    rw [if_pos hlen]
    cases hh : (items.foldl removeOne q).priorityIndex.head? with
    | some lpi =>
      rw [if_pos ⟨hc1.perm.length_eq, hc1.countEq.symm⟩]
      refine ⟨_, rfl, ⟨⟨hc1.sorted, hc1.perm, hc1.hashNodup, hc1.txsWf, hc1.countEq,
        hc1.pwBound, hc1.maxBound⟩, ?_, ?_⟩, hsub1, hmax1, hwl1⟩
      · intro hnil
        rw [hnil] at hh
        cases hh
      · show ∀ t ∈ (items.foldl removeOne q).priorityIndex, lpi.priority ≤ t.priority
        cases hidx : (items.foldl removeOne q).priorityIndex with
        | nil => intro t ht; cases ht
        | cons a as =>
          rw [hidx] at hh
          injection hh with hh2
          subst hh2
          exact sorted_head_le (hidx ▸ hc1.sorted)
    | none =>
      rw [if_pos ⟨hc1.perm.length_eq, hc1.countEq.symm⟩]
      have hnil : (items.foldl removeOne q).priorityIndex = [] :=
        List.head?_eq_none_iff.mp hh
      refine ⟨_, rfl, ⟨⟨hc1.sorted, hc1.perm, hc1.hashNodup, hc1.txsWf, hc1.countEq,
        hc1.pwBound, hc1.maxBound⟩, fun _ => rfl, ?_⟩, hsub1, hmax1, hwl1⟩
      intro t ht
      rw [hnil] at ht
      cases ht

/-! ### Preservation of the invariant through `Add` -/

theorem mem_of_head?_eq {α : Type} {l : List α} {a : α} (h : l.head? = some a) :
    a ∈ l := by
  cases l with
  | nil => cases h
  | cons b r =>
    injection h with h2
    subst h2
    exact List.mem_cons_self _ _

theorem checkTx_none_facts (q : PriorityQueue) (tx : CheckedTransaction)
    (hc : checkTxLocked q tx = none) :
    q.weightLimits.any (fun p => decide (p.2 < txWeight tx p.1)) = false ∧
    q.transactions.any (fun t => t.hash == tx.hash) = false := by
  unfold checkTxLocked at hc
  by_cases h1 : q.weightLimits.any (fun p => decide (p.2 < txWeight tx p.1)) = true
  · rw [if_pos h1] at hc; cases hc
  · rw [if_neg h1] at hc
    by_cases h2 : q.transactions.any (fun t => t.hash == tx.hash) = true
    · rw [if_pos h2] at hc; cases hc
    · exact ⟨Bool.eq_false_iff.mpr h1, Bool.eq_false_iff.mpr h2⟩

theorem mapSet_append (m : List CheckedTransaction) (tx : CheckedTransaction)
    (h : m.any (fun t => t.hash == tx.hash) = false) :
    mapSet m tx = m ++ [tx] := by
  unfold mapSet
  rw [h]
  simp

/-- After removing a single present transaction through the common removal
path, the map shrinks by exactly one entry. -/
theorem removeTxsLocked_singleton_length (q : PriorityQueue) (it : CheckedTransaction)
    (hwf : WF q) (hit : it ∈ q.transactions) :
    ∀ q2, removeTxsLocked q [it] = some q2 →
      q2.transactions.length = q.transactions.length - 1 := by
  intro q2 h
  have hg : q.transactions.any (fun t => t.hash == it.hash) = true :=
    List.any_eq_true.mpr ⟨it, hit, by simp⟩
  have hflen : (q.transactions.filter (fun t => t.hash != it.hash)).length
      = q.transactions.length - 1 := length_filter_hash hwf.core.hashNodup hit
  simp only [removeTxsLocked, List.foldl] at h
  rw [removeOne, if_pos hg] at h
  have hone : ([it] : List CheckedTransaction).length > 0 := Nat.one_pos
  rw [if_pos hone] at h
  repeat split at h
  all_goals first
    | (injection h with h2; rw [← h2]; exact hflen)
    | cases h

/-- Inserting a fresh, well-formed transaction into a well-formed state
preserves the invariant and keeps the two sizes and the weight count in
sync (so the panic gate passes).  `low3` is the updated cached minimum;
the two bounds cover both branches of the update. -/
theorem insertNew_wf (q1 : PriorityQueue) (tx : CheckedTransaction) (low3 : Nat)
    (hwf1 : WF q1) (htx : wfTx tx)
    (hfresh : ∀ t ∈ q1.transactions, t.hash ≠ tx.hash)
    (hlen : q1.transactions.length + 1 < U64)
    (hl1 : low3 ≤ q1.lowestPriority) (hl2 : low3 ≤ tx.priority) :
    WF ⟨replaceOrInsert q1.priorityIndex tx, q1.transactions ++ [tx],
        q1.maxTxPoolSize, addWeights q1.poolWeights tx.weights,
        q1.weightLimits, low3⟩ ∧
    (q1.transactions ++ [tx]).length = (replaceOrInsert q1.priorityIndex tx).length ∧
    (q1.transactions ++ [tx]).length
      = aget (addWeights q1.poolWeights tx.weights) WeightCount := by
  have hfreshIdx : ∀ t ∈ q1.priorityIndex, t.hash ≠ tx.hash :=
    fun t ht => hfresh t (hwf1.core.perm.mem_iff.mpr ht)
  have hnk : ∀ y ∈ q1.priorityIndex, ¬ (tx.priority = y.priority ∧ tx.hash = y.hash) :=
    fun y hy hk => hfreshIdx y hy hk.2.symm
  have hperm : (replaceOrInsert q1.priorityIndex tx).Perm (tx :: q1.priorityIndex) :=
    replaceOrInsert_perm tx hnk
  have hpermAll : (q1.transactions ++ [tx]).Perm (replaceOrInsert q1.priorityIndex tx) :=
    ((List.perm_append_singleton _ _).trans (hwf1.core.perm.cons tx)).trans hperm.symm
  have hcount : aget (addWeights q1.poolWeights tx.weights) WeightCount
      = q1.transactions.length + 1 := by
    rw [aget_addWeights_some _ _ _ 1 htx.1 (wfTx_count_lookup htx), hwf1.core.countEq]
    exact uadd_of_lt _ _ hlen
  refine ⟨⟨⟨?_, hpermAll, ?_, ?_, ?_, ?_, hwf1.core.maxBound⟩, ?_, ?_⟩, ?_, ?_⟩
  · exact replaceOrInsert_pairwise tx hwf1.core.sorted
  · rw [List.map_append]
    refine List.Nodup.append hwf1.core.hashNodup (List.nodup_singleton _) ?_
    intro a ha hb
    rcases List.mem_map.mp ha with ⟨t, ht, rfl⟩
    exact hfresh t ht (List.mem_singleton.mp hb)
  · intro t ht
    rcases List.mem_append.mp ht with h | h
    · exact hwf1.core.txsWf t h
    · rw [List.mem_singleton.mp h]; exact htx
  · rw [hcount, List.length_append]
    simp
  · exact aget_addWeights_lt _ _ hwf1.core.pwBound
  · intro habs
    exact absurd habs (replaceOrInsert_ne_nil _ _)
  · intro t ht
    rcases mem_replaceOrInsert ht with rfl | h2
    · exact hl2
    · exact le_trans hl1 (hwf1.lowestLe t h2)
  · rw [List.length_append, hperm.length_eq, List.length_cons,
      hwf1.core.perm.length_eq]
    simp
  · rw [hcount, List.length_append]
    simp

/-- `Add` on a well-formed state never panics: it either rejects leaving
the state unchanged, or succeeds with a well-formed state. -/
theorem Add_wf (q : PriorityQueue) (tx : CheckedTransaction) (hwf : WF q)
    (htx : wfTx tx) :
    (∃ e, Add q tx = AddResult.rejected e q) ∨
    (∃ q2, Add q tx = AddResult.ok q2 ∧ WF q2) := by
  simp only [Add]
  by_cases h1 : (aget q.poolWeights WeightCount ≥ q.maxTxPoolSize ∧
      tx.priority ≤ q.lowestPriority)
  · rw [if_pos h1]
    exact .inl ⟨.poolFull, rfl⟩
  · rw [if_neg h1]
    cases hc : checkTxLocked q tx with
    | some e => exact .inl ⟨e, rfl⟩
    | none =>
      obtain ⟨hov, hdup⟩ := checkTx_none_facts q tx hc
      have hfresh : ∀ t ∈ q.transactions, t.hash ≠ tx.hash := by
        intro t ht he
        have hany : q.transactions.any (fun t2 => t2.hash == tx.hash) = true :=
          List.any_eq_true.mpr ⟨t, ht, by simpa using he⟩
        rw [hdup] at hany
        cases hany
      split
      next heq0 => exact Option.noConfusion heq0
      next heq0 =>
       split
       next heq =>
        exfalso
        by_cases hfull : aget q.poolWeights WeightCount ≥ q.maxTxPoolSize
        · rw [if_pos hfull] at heq
          cases hh : q.priorityIndex.head? with
          | none =>
            rw [hh] at heq
            exact Option.noConfusion (show some q = none from heq)
          | some lpi =>
            rw [hh] at heq
            have hlpi : lpi ∈ q.transactions :=
              hwf.core.perm.mem_iff.mpr (mem_of_head?_eq hh)
            obtain ⟨qr, heq2, _, _, _, _⟩ := removeTxsLocked_wf q [lpi] hwf
              (fun i hi => (List.mem_singleton.mp hi) ▸ hlpi)
            have heqr : removeTxsLocked q [lpi] = none := heq
            rw [heq2] at heqr
            cases heqr
        · rw [if_neg hfull] at heq
          exact Option.noConfusion heq
       next q1 heq =>
        have hq1 : WF q1 ∧ (∀ t ∈ q1.transactions, t.hash ≠ tx.hash) ∧
            q1.transactions.length + 1 < U64 := by
          by_cases hfull : aget q.poolWeights WeightCount ≥ q.maxTxPoolSize
          · rw [if_pos hfull] at heq
            cases hh : q.priorityIndex.head? with
            | none =>
              rw [hh] at heq
              have heqr : some q = some q1 := heq
              injection heqr with heq2
              subst heq2
              refine ⟨hwf, hfresh, ?_⟩
              have hnil : q.priorityIndex = [] := List.head?_eq_none_iff.mp hh
              have hzero : q.transactions.length = 0 := by
                rw [hwf.core.perm.length_eq, hnil]
                rfl
              rw [hzero]
              decide
            | some lpi =>
              rw [hh] at heq
              have hlpi : lpi ∈ q.transactions :=
                hwf.core.perm.mem_iff.mpr (mem_of_head?_eq hh)
              obtain ⟨qr, heq2, hwfr, hsubr, hmaxr, hwlr⟩ :=
                removeTxsLocked_wf q [lpi] hwf
                  (fun i hi => (List.mem_singleton.mp hi) ▸ hlpi)
              have hlenr : qr.transactions.length = q.transactions.length - 1 :=
                removeTxsLocked_singleton_length q lpi hwf hlpi qr heq2
              have heqr : removeTxsLocked q [lpi] = some q1 := heq
              rw [heq2] at heqr
              injection heqr with heq3
              subst heq3
              refine ⟨hwfr, fun t ht => hfresh t (hsubr t ht), ?_⟩
              have hp : 0 < q.transactions.length :=
                List.length_pos.mpr (List.ne_nil_of_mem hlpi)
              have hq : q.transactions.length < U64 :=
                hwf.core.countEq ▸ hwf.core.pwBound WeightCount
              omega
          · rw [if_neg hfull] at heq
            injection heq with heq2
            subst heq2
            refine ⟨hwf, hfresh, ?_⟩
            have hq : aget q.poolWeights WeightCount < q.maxTxPoolSize := by omega
            have hmax := hwf.core.maxBound
            have hce := hwf.core.countEq
            omega
        obtain ⟨hwf1, hfresh1, hlen1⟩ := hq1
        have hdup1 : q1.transactions.any (fun t => t.hash == tx.hash) = false := by
          refine Bool.eq_false_iff.mpr ?_
          intro hany
          rcases List.any_eq_true.mp hany with ⟨t, ht, heqt⟩
          exact hfresh1 t ht (by simpa using heqt)
        rw [mapSet_append q1.transactions tx hdup1]
        by_cases hl : tx.priority < q1.lowestPriority
        · rw [if_pos hl]
          obtain ⟨hwf3, hg1, hg2⟩ := insertNew_wf q1 tx tx.priority hwf1 htx hfresh1
            hlen1 (le_of_lt hl) (le_refl _)
          rw [if_pos (⟨hg1, hg2⟩ :
            (q1.transactions ++ [tx]).length
                = (replaceOrInsert q1.priorityIndex tx).length ∧
            (q1.transactions ++ [tx]).length
                = aget (addWeights q1.poolWeights tx.weights) WeightCount)]
          exact .inr ⟨_, rfl, hwf3⟩
        · rw [if_neg hl]
          obtain ⟨hwf3, hg1, hg2⟩ := insertNew_wf q1 tx q1.lowestPriority hwf1 htx
            hfresh1 hlen1 (le_refl _) (by omega)
          rw [if_pos (⟨hg1, hg2⟩ :
            (q1.transactions ++ [tx]).length
                = (replaceOrInsert q1.priorityIndex tx).length ∧
            (q1.transactions ++ [tx]).length
                = aget (addWeights q1.poolWeights tx.weights) WeightCount)]
          exact .inr ⟨_, rfl, hwf3⟩

/-- Every error return of `Add` happens before the first mutation, so the
state it carries is the original state. -/
theorem add_rejected_eq (q : PriorityQueue) (tx : CheckedTransaction)
    (e : AddError) (q2 : PriorityQueue)
    (h : Add q tx = AddResult.rejected e q2) : q2 = q := by
  simp only [Add] at h
  split at h
  · injection h with h1 h2; exact h2.symm
  · split at h
    · injection h with h1 h2; exact h2.symm
    · repeat split at h
      all_goals first
        | exact AddResult.noConfusion h
        | (rw [ite_eq_iff] at h;
           rcases h with ⟨hC, h⟩ | ⟨hC, h⟩ <;> exact AddResult.noConfusion h)

/-! ### Preservation of the invariant through the batch operations -/

theorem gbLoop_toRemove_subset (wl : List (Weight × Nat)) :
    ∀ (items batch : List CheckedTransaction) (bw : List (Weight × Nat))
      (toRemove : List CheckedTransaction),
      ∀ x ∈ (gbLoop wl items batch bw toRemove).2, x ∈ toRemove ∨ x ∈ items := by
  intro items
  induction items with
  | nil =>
    intro batch bw toRemove x hx
    simp only [gbLoop] at hx
    exact .inl hx
  | cons it rest ih =>
    intro batch bw toRemove x hx
    cases hck : gbCheckItem bw it wl with
    | drop =>
      rw [gbLoop, hck] at hx
      rcases ih batch bw (toRemove ++ [it]) x hx with h | h
      · rcases List.mem_append.mp h with h2 | h2
        · exact .inl h2
        · exact .inr (by rw [List.mem_singleton.mp h2]; exact List.mem_cons_self it rest)
      · exact .inr (List.mem_cons_of_mem _ h)
    | stop =>
      rw [gbLoop, hck] at hx
      exact .inl hx
    | skip =>
      rw [gbLoop, hck] at hx
      exact (ih batch bw toRemove x hx).imp id (List.mem_cons_of_mem _)
    | fits =>
      rw [gbLoop, hck] at hx
      exact (ih (batch ++ [it]) (bwAdd bw it.weights) toRemove x hx).imp id
        (List.mem_cons_of_mem _)

theorem gpbLoop_cons (offset : Option Nat) (limit : Nat) (wl : List (Weight × Nat))
    (it : CheckedTransaction) (rest batch toRemove : List CheckedTransaction) :
    gpbLoop offset limit wl (it :: rest) batch toRemove =
      (if wl.any (fun p => decide (p.2 < txWeight it p.1)) then
        gpbLoop offset limit wl rest batch (toRemove ++ [it])
      else if hashEqualOpt it.hash offset then
        gpbLoop offset limit wl rest batch toRemove
      else if limit ≤ (batch.length + 1) % 2 ^ 32 then (batch ++ [it], toRemove)
      else gpbLoop offset limit wl rest (batch ++ [it]) toRemove) := rfl

theorem gpbLoop_toRemove_subset (offset : Option Nat) (limit : Nat)
    (wl : List (Weight × Nat)) :
    ∀ (items batch toRemove : List CheckedTransaction),
      ∀ x ∈ (gpbLoop offset limit wl items batch toRemove).2,
        x ∈ toRemove ∨ x ∈ items := by
  intro items
  induction items with
  | nil =>
    intro batch toRemove x hx
    simp only [gpbLoop] at hx
    exact .inl hx
  | cons it rest ih =>
    intro batch toRemove x hx
    rw [gpbLoop_cons] at hx
    by_cases c1 : wl.any (fun p => decide (p.2 < txWeight it p.1)) = true
    · rw [if_pos c1] at hx
      rcases ih batch (toRemove ++ [it]) x hx with h | h
      · rcases List.mem_append.mp h with h2 | h2
        · exact .inl h2
        · exact .inr (by rw [List.mem_singleton.mp h2]
                         exact List.mem_cons_self it rest)
      · exact .inr (List.mem_cons_of_mem _ h)
    · rw [if_neg c1] at hx
      by_cases c2 : hashEqualOpt it.hash offset = true
      · rw [if_pos c2] at hx
        exact (ih batch toRemove x hx).imp id (List.mem_cons_of_mem _)
      · rw [if_neg c2] at hx
        by_cases c3 : limit ≤ (batch.length + 1) % 2 ^ 32
        · rw [if_pos c3] at hx
          exact .inl hx
        · rw [if_neg c3] at hx
          exact (ih (batch ++ [it]) toRemove x hx).imp id (List.mem_cons_of_mem _)

theorem GetBatch_wf (q : PriorityQueue) (force : Bool) (hwf : WF q) :
    ∃ b q2, GetBatch q force = some (b, q2) ∧ WF q2 ∧
      q2.maxTxPoolSize = q.maxTxPoolSize ∧ q2.weightLimits = q.weightLimits := by
  simp only [GetBatch]
  by_cases hr : (!q.weightLimits.any (fun p => decide (aget q.poolWeights p.1 ≥ p.2))
      && !force) = true
  · rw [if_pos hr]
    exact ⟨[], q, rfl, hwf, rfl, rfl⟩
  · rw [if_neg hr]
    have hsub : ∀ i ∈ (gbLoop q.weightLimits q.priorityIndex.reverse []
        (q.weightLimits.map (fun p => (p.1, 0))) []).2, i ∈ q.transactions := by
      intro i hi
      rcases gbLoop_toRemove_subset _ _ _ _ _ i hi with h | h
      · cases h
      · exact hwf.core.perm.mem_iff.mpr (List.mem_reverse.mp h)
    obtain ⟨q2, heq, hwf2, hsub2, hmax2, hwl2⟩ := removeTxsLocked_wf q _ hwf hsub
    rw [heq]
    exact ⟨_, q2, rfl, hwf2, hmax2, hwl2⟩

theorem GetPrioritizedBatch_wf (q : PriorityQueue) (offset : Option Nat) (limit : Nat)
    (hwf : WF q) :
    ∃ b q2, GetPrioritizedBatch q offset limit = some (b, q2) ∧ WF q2 ∧
      q2.maxTxPoolSize = q.maxTxPoolSize ∧ q2.weightLimits = q.weightLimits := by
  cases offset with
  | none =>
    simp only [GetPrioritizedBatch]
    have hsub : ∀ i ∈ (gpbLoop none limit q.weightLimits
        q.priorityIndex.reverse [] []).2, i ∈ q.transactions := by
      intro i hi
      rcases gpbLoop_toRemove_subset _ _ _ _ _ _ i hi with h | h
      · cases h
      · exact hwf.core.perm.mem_iff.mpr (List.mem_reverse.mp h)
    obtain ⟨q2, heq, hwf2, hsub2, hmax2, hwl2⟩ := removeTxsLocked_wf q _ hwf hsub
    rw [heq]
    exact ⟨_, q2, rfl, hwf2, hmax2, hwl2⟩
  | some o =>
    simp only [GetPrioritizedBatch]
    cases hf : q.transactions.find? (fun t => t.hash == o) with
    | none => exact ⟨[], q, rfl, hwf, rfl, rfl⟩
    | some offItem =>
      have hsub : ∀ i ∈ (gpbLoop (some o) limit q.weightLimits
          ((q.priorityIndex.filter (fun i2 => !decide (ItemLt offItem i2))).reverse)
          [] []).2, i ∈ q.transactions := by
        intro i hi
        rcases gpbLoop_toRemove_subset _ _ _ _ _ _ i hi with h | h
        · cases h
        · exact hwf.core.perm.mem_iff.mpr
            (List.mem_of_mem_filter (List.mem_reverse.mp h))
      obtain ⟨q2, heq, hwf2, hsub2, hmax2, hwl2⟩ := removeTxsLocked_wf q _ hwf hsub
      refine ⟨(gpbLoop (some o) limit q.weightLimits
          ((q.priorityIndex.filter (fun i2 => !decide (ItemLt offItem i2))).reverse)
          [] []).1, q2, ?_, hwf2, hmax2, hwl2⟩
      simp only [GetPrioritizedBatch]
      rw [heq]

theorem collectItems_mem (q : PriorityQueue) :
    ∀ (bs : List Nat) (acc : List CheckedTransaction),
      (∀ i ∈ acc, i ∈ q.transactions) →
      ∀ i ∈ collectItems q bs acc, i ∈ q.transactions := by
  intro bs
  induction bs with
  | nil =>
    intro acc hacc i hi
    exact hacc i hi
  | cons b rest ih =>
    intro acc hacc i hi
    rw [collectItems] at hi
    cases hf : q.transactions.find? (fun t => t.hash == b) with
    | none =>
      rw [hf] at hi
      exact ih acc hacc i hi
    | some it =>
      rw [hf] at hi
      refine ih (acc ++ [it]) ?_ i hi
      intro j hj
      rcases List.mem_append.mp hj with h | h
      · exact hacc j h
      · rw [List.mem_singleton.mp h]
        exact List.mem_of_find?_eq_some hf

theorem RemoveTxBatch_wf (q : PriorityQueue) (batch : List Nat) (hwf : WF q) :
    ∃ q2, RemoveTxBatch q batch = some q2 ∧ WF q2 ∧
      q2.maxTxPoolSize = q.maxTxPoolSize ∧ q2.weightLimits = q.weightLimits := by
  obtain ⟨q2, heq, hwf2, hsub, hmax, hwl⟩ :=
    removeTxsLocked_wf q (collectItems q batch []) hwf
      (collectItems_mem q batch [] (fun i hi => absurd hi (List.not_mem_nil i)))
  exact ⟨q2, heq, hwf2, hmax, hwl⟩

/-! ### Batch-weight bookkeeping in `GetBatch` -/

theorem bwAdd_alookup_of_none (tw : List (Weight × Nat)) :
    ∀ (bw : List (Weight × Nat)) (k : Weight), alookup tw k = none →
      alookup (bwAdd bw tw) k = alookup bw k := by
  induction tw with
  | nil => intro bw k _; rfl
  | cons p r ih =>
    obtain ⟨k1, v1⟩ := p
    intro bw k h
    simp only [alookup] at h
    by_cases hk : k1 = k
    · rw [if_pos hk] at h; cases h
    · rw [if_neg hk] at h
      rw [bwAdd]
      cases hbw : alookup bw k1 with
      | some bv =>
        rw [ih _ _ h, alookup_aset_ne _ _ _ _ hk]
      | none =>
        rw [ih _ _ h]

theorem bwAdd_alookup_of_some (tw : List (Weight × Nat)) :
    ∀ (bw : List (Weight × Nat)) (k : Weight) (v bv : Nat),
      (tw.map Prod.fst).Nodup → alookup tw k = some v → alookup bw k = some bv →
      alookup (bwAdd bw tw) k = some (uadd bv v) := by
  induction tw with
  | nil => intro bw k v bv _ h _; cases h
  | cons p r ih =>
    obtain ⟨k1, v1⟩ := p
    intro bw k v bv hnd h hbw
    simp only [List.map_cons, List.nodup_cons] at hnd
    simp only [alookup] at h
    by_cases hk : k1 = k
    · rw [if_pos hk] at h
      injection h with hv
      subst hv
      subst hk
      rw [bwAdd, hbw]
      rw [bwAdd_alookup_of_none r _ _ (alookup_eq_none_of_not_mem _ _ hnd.1),
        alookup_aset_self]
    · rw [if_neg hk] at h
      rw [bwAdd]
      cases hbw1 : alookup bw k1 with
      | some bv1 =>
        exact ih _ _ _ _ hnd.2 h
          ((alookup_aset_ne _ _ _ _ hk).trans hbw)
      | none =>
        exact ih _ _ _ _ hnd.2 h hbw

theorem gbCheckItem_fits_bound (tx : CheckedTransaction) :
    ∀ (wl bw : List (Weight × Nat)) (w : Weight) (l bv : Nat),
      gbCheckItem bw tx wl = DimOutcome.fits → alookup wl w = some l →
      alookup bw w = some bv → uadd bv (txWeight tx w) ≤ l := by
  intro wl
  induction wl with
  | nil => intro bw w l bv _ hwl _; cases hwl
  | cons p rest ih =>
    obtain ⟨w1, l1⟩ := p
    intro bw w l bv h hwl hbw
    simp only [gbCheckItem] at h
    by_cases c1 : l1 < txWeight tx w1
    · rw [if_pos c1] at h; cases h
    · rw [if_neg c1] at h
      by_cases c2 : usub l1 (aget bw w1) < aget minWeights w1
      · rw [if_pos c2] at h; cases h
      · rw [if_neg c2] at h
        by_cases c3 : l1 < uadd (aget bw w1) (txWeight tx w1)
        · rw [if_pos c3] at h; cases h
        · rw [if_neg c3] at h
          simp only [alookup] at hwl
          by_cases hw : w1 = w
          · rw [if_pos hw] at hwl
            injection hwl with hl
            subst hl
            subst hw
            have hv : aget bw w1 = bv := by unfold aget; rw [hbw]; rfl
            rw [hv] at c3
            exact not_lt.mp c3
          · rw [if_neg hw] at hwl
            exact ih bw w l bv h hwl hbw

theorem gbLoop_sum_le (w : Weight) (l : Nat) (wl : List (Weight × Nat))
    (hwl : alookup wl w = some l) :
    ∀ (items batch : List CheckedTransaction) (bw : List (Weight × Nat))
      (toRemove : List CheckedTransaction) (bv : Nat),
      (∀ t ∈ items, (t.weights.map Prod.fst).Nodup) →
      alookup bw w = some bv →
      bv = ((batch.map (fun t => txWeight t w)).sum) % U64 →
      bv ≤ l →
      (((gbLoop wl items batch bw toRemove).1.map (fun t => txWeight t w)).sum)
        % U64 ≤ l := by
  intro items
  induction items with
  | nil =>
    intro batch bw tr bv _ _ hsum hle
    simp only [gbLoop]
    rw [← hsum]
    exact hle
  | cons it rest ih =>
    intro batch bw tr bv htx hbw hsum hle
    have htxit : (it.weights.map Prod.fst).Nodup := htx it (List.mem_cons_self _ _)
    have htxrest : ∀ t ∈ rest, (t.weights.map Prod.fst).Nodup :=
      fun t ht => htx t (List.mem_cons_of_mem _ ht)
    cases hck : gbCheckItem bw it wl with
    | drop =>
      rw [gbLoop, hck]
      exact ih _ _ _ bv htxrest hbw hsum hle
    | stop =>
      rw [gbLoop, hck]
      exact hsum ▸ hle
    | skip =>
      rw [gbLoop, hck]
      exact ih _ _ _ bv htxrest hbw hsum hle
    | fits =>
      rw [gbLoop, hck]
      have hb2 : uadd bv (txWeight it w) ≤ l :=
        gbCheckItem_fits_bound it wl bw w l bv hck hwl hbw
      cases htw : alookup it.weights w with
      | some v =>
        have htv : txWeight it w = v := by unfold txWeight; rw [htw]; rfl
        have hbw2 : alookup (bwAdd bw it.weights) w = some (uadd bv v) :=
          bwAdd_alookup_of_some it.weights bw w v bv htxit htw hbw
        refine ih _ _ _ (uadd bv v) htxrest hbw2 ?_ ?_
        · rw [List.map_append, List.sum_append]
          have hone : (([it].map (fun t => txWeight t w)).sum) = v := by
            simp [htv]
          rw [hone, hsum, uadd_sum_mod]
        · rw [← htv]
          exact hb2
      | none =>
        have htv : txWeight it w = 0 := by unfold txWeight; rw [htw]; rfl
        have hbw2 : alookup (bwAdd bw it.weights) w = some bv :=
          (bwAdd_alookup_of_none it.weights bw w htw).trans hbw
        refine ih _ _ _ bv htxrest hbw2 ?_ hle
        rw [List.map_append, List.sum_append]
        have hzero : (([it].map (fun t => txWeight t w)).sum) = 0 := by
          simp [htv]
        rw [hzero, Nat.add_zero]
        exact hsum

theorem alookup_map_zero (wl : List (Weight × Nat)) (w : Weight) (l : Nat)
    (h : alookup wl w = some l) :
    alookup (wl.map (fun p => (p.1, 0))) w = some 0 := by
  induction wl with
  | nil => cases h
  | cons p r ih =>
    obtain ⟨k1, v1⟩ := p
    simp only [alookup, List.map_cons] at *
    by_cases hk : k1 = w
    · rw [if_pos hk]
    · rw [if_neg hk] at h ⊢
      exact ih h

/-! ### Shape of the `GetPrioritizedBatch` result -/

theorem gpbLoop_batch_sublist (offset : Option Nat) (limit : Nat)
    (wl : List (Weight × Nat)) :
    ∀ (items batch toRemove : List CheckedTransaction),
      ∃ s, (gpbLoop offset limit wl items batch toRemove).1 = batch ++ s ∧
        s.Sublist items := by
  intro items
  induction items with
  | nil =>
    intro batch tr
    exact ⟨[], by simp [gpbLoop], List.Sublist.refl _⟩
  | cons it rest ih =>
    intro batch tr
    rw [gpbLoop_cons]
    by_cases c1 : wl.any (fun p => decide (p.2 < txWeight it p.1)) = true
    · rw [if_pos c1]
      obtain ⟨s, hs1, hs2⟩ := ih batch (tr ++ [it])
      exact ⟨s, hs1, hs2.cons it⟩
    · rw [if_neg c1]
      by_cases c2 : hashEqualOpt it.hash offset = true
      · rw [if_pos c2]
        obtain ⟨s, hs1, hs2⟩ := ih batch tr
        exact ⟨s, hs1, hs2.cons it⟩
      · rw [if_neg c2]
        by_cases c3 : limit ≤ (batch.length + 1) % 2 ^ 32
        · rw [if_pos c3]
          exact ⟨[it], rfl, (List.nil_sublist rest).cons₂ it⟩
        · rw [if_neg c3]
          obtain ⟨s, hs1, hs2⟩ := ih (batch ++ [it]) tr
          exact ⟨it :: s, by rw [hs1, List.append_assoc]; rfl, hs2.cons₂ it⟩

theorem gpbLoop_length_le (offset : Option Nat) (limit : Nat)
    (wl : List (Weight × Nat)) (hlim : limit < 2 ^ 32) :
    ∀ (items batch toRemove : List CheckedTransaction), batch.length < limit →
      (gpbLoop offset limit wl items batch toRemove).1.length ≤ limit := by
  intro items
  induction items with
  | nil =>
    intro batch tr hb
    simp only [gpbLoop]
    omega
  | cons it rest ih =>
    intro batch tr hb
    rw [gpbLoop_cons]
    by_cases c1 : wl.any (fun p => decide (p.2 < txWeight it p.1)) = true
    · rw [if_pos c1]
      exact ih _ _ hb
    · rw [if_neg c1]
      by_cases c2 : hashEqualOpt it.hash offset = true
      · rw [if_pos c2]
        exact ih _ _ hb
      · rw [if_neg c2]
        by_cases c3 : limit ≤ (batch.length + 1) % 2 ^ 32
        · rw [if_pos c3]
          rw [List.length_append, List.length_singleton]
          omega
        · rw [if_neg c3]
          refine ih _ _ ?_
          rw [List.length_append, List.length_singleton]
          omega

theorem gpbLoop_length_zero (offset : Option Nat) (wl : List (Weight × Nat)) :
    ∀ (items toRemove : List CheckedTransaction),
      (gpbLoop offset 0 wl items [] toRemove).1.length ≤ 1 := by
  intro items
  induction items with
  | nil =>
    intro tr
    simp [gpbLoop]
  | cons it rest ih =>
    intro tr
    rw [gpbLoop_cons]
    by_cases c1 : wl.any (fun p => decide (p.2 < txWeight it p.1)) = true
    · rw [if_pos c1]
      exact ih _
    · rw [if_neg c1]
      by_cases c2 : hashEqualOpt it.hash offset = true
      · rw [if_pos c2]
        exact ih _
      · rw [if_neg c2]
        rw [if_pos (Nat.zero_le _)]
        simp

theorem gpbLoop_result_shape (offset : Option Nat) (limit : Nat)
    (wl : List (Weight × Nat)) (items : List CheckedTransaction)
    (hlim : limit < 2 ^ 32)
    (hdesc : items.Pairwise (fun a c => ItemLt c a)) :
    (gpbLoop offset limit wl items [] []).1.length ≤ max limit 1 ∧
    (gpbLoop offset limit wl items [] []).1.Pairwise
      (fun a c => c.priority ≤ a.priority) := by
  obtain ⟨s, hs1, hs2⟩ := gpbLoop_batch_sublist offset limit wl items [] []
  constructor
  · cases Nat.eq_zero_or_pos limit with
    | inl h0 =>
      subst h0
      calc (gpbLoop offset 0 wl items [] []).1.length ≤ 1 :=
          gpbLoop_length_zero offset wl items []
        _ ≤ max 0 1 := by omega
    | inr hpos =>
      calc (gpbLoop offset limit wl items [] []).1.length ≤ limit :=
          gpbLoop_length_le offset limit wl hlim items [] [] (by simpa using hpos)
        _ ≤ max limit 1 := le_max_left _ _
  · rw [hs1]
    simp only [List.nil_append]
    exact (hdesc.sublist hs2).imp (fun hlt => itemLt_priority_le hlt)

/-! ### Restoring the state after an add followed by a removal -/

theorem btreeDelete_replaceOrInsert (l : List CheckedTransaction)
    (x : CheckedTransaction) (hs : l.Pairwise ItemLt)
    (hnk : ∀ y ∈ l, ¬ (x.priority = y.priority ∧ x.hash = y.hash)) :
    btreeDelete (replaceOrInsert l x) x = l := by
  induction l with
  | nil =>
    simp only [replaceOrInsert, btreeDelete]
    rw [if_neg (itemLt_irrefl x), if_neg (itemLt_irrefl x)]
  | cons y r ih =>
    rcases List.pairwise_cons.mp hs with ⟨hy, hr⟩
    by_cases h1 : ItemLt x y
    · rw [replaceOrInsert, if_pos h1, btreeDelete,
        if_neg (itemLt_irrefl x), if_neg (itemLt_irrefl x)]
    · rw [replaceOrInsert, if_neg h1]
      by_cases h2 : ItemLt y x
      · rw [if_pos h2, btreeDelete, if_neg (itemLt_asymm h2), if_pos h2,
          ih hr (fun z hz => hnk z (List.mem_cons_of_mem _ hz))]
      · exact absurd (itemLt_connex h1 h2) (hnk y (List.mem_cons_self y r))

theorem filter_append_singleton_restore (m : List CheckedTransaction)
    (tx : CheckedTransaction) (h : ∀ t ∈ m, t.hash ≠ tx.hash) :
    (m ++ [tx]).filter (fun t => t.hash != tx.hash) = m := by
  rw [List.filter_append, filter_hash_eq_self h]
  have h2 : ([tx].filter (fun t => t.hash != tx.hash)) = [] := by simp
  rw [h2, List.append_nil]

theorem find?_append_singleton (m : List CheckedTransaction)
    (tx : CheckedTransaction) (h : ∀ t ∈ m, t.hash ≠ tx.hash) :
    (m ++ [tx]).find? (fun t => t.hash == tx.hash) = some tx := by
  induction m with
  | nil => simp [List.find?]
  | cons y r ih =>
    have hy : (y.hash == tx.hash) = false := by
      simpa using h y (List.mem_cons_self y r)
    rw [List.cons_append, List.find?_cons_of_neg _ (by simp [hy])]
    exact ih (fun t ht => h t (List.mem_cons_of_mem _ ht))

/-- The heart of the add/remove round trip: removing the freshly inserted
transaction restores both indices exactly, restores the pool weights
pointwise, and recomputes `lowestPriority` from the index minimum. -/
theorem c8_helper (q Q2 : PriorityQueue) (tx : CheckedTransaction)
    (hwf : WF q) (htx : wfTx tx)
    (hfresh : ∀ t ∈ q.transactions, t.hash ≠ tx.hash)
    (h1 : Q2.priorityIndex = replaceOrInsert q.priorityIndex tx)
    (h2 : Q2.transactions = q.transactions ++ [tx])
    (h3 : Q2.maxTxPoolSize = q.maxTxPoolSize)
    (h4 : Q2.poolWeights = addWeights q.poolWeights tx.weights)
    (h5 : Q2.weightLimits = q.weightLimits) :
    ∃ q3, RemoveTxBatch Q2 [tx.hash] = some q3 ∧
      q3.transactions = q.transactions ∧
      q3.priorityIndex = q.priorityIndex ∧
      (∀ k, aget q3.poolWeights k = aget q.poolWeights k) ∧
      q3.maxTxPoolSize = q.maxTxPoolSize ∧
      q3.weightLimits = q.weightLimits ∧
      q3.lowestPriority = (match q.priorityIndex.head? with
        | some t => t.priority
        | none => 0) := by
  have hfind : Q2.transactions.find? (fun t => t.hash == tx.hash) = some tx := by
    rw [h2]
    exact find?_append_singleton _ _ hfresh
  have hcoll : collectItems Q2 [tx.hash] [] = [tx] := by
    rw [collectItems, hfind]
    rfl
  have hguard : Q2.transactions.any (fun t => t.hash == tx.hash) = true := by
    rw [h2]
    exact List.any_eq_true.mpr
      ⟨tx, List.mem_append.mpr (Or.inr (List.mem_singleton.mpr rfl)), by simp⟩
  have htr3 : Q2.transactions.filter (fun t => t.hash != tx.hash)
      = q.transactions := by
    rw [h2]
    exact filter_append_singleton_restore _ _ hfresh
  have hnk : ∀ y ∈ q.priorityIndex, ¬ (tx.priority = y.priority ∧ tx.hash = y.hash) :=
    fun y hy hk => hfresh y (hwf.core.perm.mem_iff.mpr hy) hk.2.symm
  have hix3 : btreeDelete Q2.priorityIndex tx = q.priorityIndex := by
    rw [h1]
    exact btreeDelete_replaceOrInsert _ _ hwf.core.sorted hnk
  have hpw3 : ∀ k, aget (subWeights Q2.poolWeights tx.weights) k
      = aget q.poolWeights k := by
    intro k
    rw [h4]
    exact aget_sub_add_cancel _ _ _ htx.1 (hwf.core.pwBound k)
  rw [RemoveTxBatch, hcoll]
  simp only [removeTxsLocked, List.foldl]
  rw [removeOne, if_pos hguard]
  rw [htr3, hix3]
  have hone : ([tx] : List CheckedTransaction).length > 0 := Nat.one_pos
  rw [if_pos hone]
  have hgB : q.transactions.length = aget (subWeights Q2.poolWeights tx.weights)
      WeightCount := ((hpw3 WeightCount).trans hwf.core.countEq).symm
  cases hh : q.priorityIndex.head? with
  | some lpi =>
    rw [if_pos (⟨hwf.core.perm.length_eq, hgB⟩ :
      q.transactions.length = q.priorityIndex.length ∧
      q.transactions.length = aget (subWeights Q2.poolWeights tx.weights)
        WeightCount)]
    exact ⟨_, rfl, rfl, rfl, hpw3, h3, h5, rfl⟩
  | none =>
    rw [if_pos (⟨hwf.core.perm.length_eq, hgB⟩ :
      q.transactions.length = q.priorityIndex.length ∧
      q.transactions.length = aget (subWeights Q2.poolWeights tx.weights)
        WeightCount)]
    exact ⟨_, rfl, rfl, rfl, hpw3, h3, h5, rfl⟩

/-! ### The reachable states of the queue -/

/-- One public operation of the queue, under the external contracts of the
spec: transactions supplied to `add` come from Go maps and carry
`weights[count] = 1`, and configured sizes are `uint64` values.  Panicking
calls (`none` results) have no successor state. -/
inductive Step : PriorityQueue → PriorityQueue → Prop where
  | addOk (q q2 : PriorityQueue) (tx : CheckedTransaction) (htx : wfTx tx)
      (h : Add q tx = AddResult.ok q2) : Step q q2
  | addRejected (q q2 : PriorityQueue) (tx : CheckedTransaction) (e : AddError)
      (h : Add q tx = AddResult.rejected e q2) : Step q q2
  | getBatch (q q2 : PriorityQueue) (force : Bool) (b : List CheckedTransaction)
      (h : GetBatch q force = some (b, q2)) : Step q q2
  | getPrioritizedBatch (q q2 : PriorityQueue) (offset : Option Nat) (limit : Nat)
      (b : List CheckedTransaction)
      (h : GetPrioritizedBatch q offset limit = some (b, q2)) : Step q q2
  | removeTxBatch (q q2 : PriorityQueue) (hs : List Nat)
      (h : RemoveTxBatch q hs = some q2) : Step q q2
  | updateMaxPoolSize (q : PriorityQueue) (n : Nat) (hn : n < U64) :
      Step q (UpdateMaxPoolSize q n)
  | updateWeightLimits (q : PriorityQueue) (wl : List (Weight × Nat)) :
      Step q (UpdateWeightLimits q wl)
  | clear (q : PriorityQueue) : Step q (Clear q)

/-- States reachable from a freshly constructed queue by public
operations. -/
inductive Reachable : PriorityQueue → Prop where
  | init (maxPoolSize : Nat) (wl : List (Weight × Nat)) (hmax : maxPoolSize < U64) :
      Reachable (newPriorityQueue maxPoolSize wl)
  | step (q q2 : PriorityQueue) (hq : Reachable q) (hs : Step q q2) : Reachable q2

theorem newPriorityQueue_wf (mx : Nat) (wl : List (Weight × Nat)) (hmax : mx < U64) :
    WF (newPriorityQueue mx wl) :=
  ⟨⟨List.Pairwise.nil, List.Perm.refl _, List.nodup_nil,
    fun t ht => absurd ht (List.not_mem_nil t), rfl, fun _ => U64_pos, hmax⟩,
   fun _ => rfl, fun t ht => absurd ht (List.not_mem_nil t)⟩

theorem step_wf {q q2 : PriorityQueue} (hwf : WF q) (hs : Step q q2) : WF q2 := by
  cases hs with
  | addOk _ tx htx h =>
    rcases Add_wf q tx hwf htx with ⟨e, he⟩ | ⟨q3, he, hwf3⟩
    · rw [he] at h; cases h
    · rw [he] at h
      injection h with h2
      rw [← h2]
      exact hwf3
  | addRejected _ tx e h =>
    rw [add_rejected_eq q tx e q2 h]
    exact hwf
  | getBatch _ force b h =>
    obtain ⟨b2, q3, heq, hwf3, _, _⟩ := GetBatch_wf q force hwf
    rw [heq] at h
    injection h with h2
    have h3 : q3 = q2 := congrArg Prod.snd h2
    rw [← h3]
    exact hwf3
  | getPrioritizedBatch _ offset limit b h =>
    obtain ⟨b2, q3, heq, hwf3, _, _⟩ := GetPrioritizedBatch_wf q offset limit hwf
    rw [heq] at h
    injection h with h2
    have h3 : q3 = q2 := congrArg Prod.snd h2
    rw [← h3]
    exact hwf3
  | removeTxBatch _ hs2 h =>
    obtain ⟨q3, heq, hwf3, _, _⟩ := RemoveTxBatch_wf q hs2 hwf
    rw [heq] at h
    injection h with h2
    rw [← h2]
    exact hwf3
  | updateMaxPoolSize n hn =>
    exact ⟨⟨hwf.core.sorted, hwf.core.perm, hwf.core.hashNodup, hwf.core.txsWf,
      hwf.core.countEq, hwf.core.pwBound, hn⟩, hwf.lowestEmpty, hwf.lowestLe⟩
  | updateWeightLimits wl =>
    exact ⟨⟨hwf.core.sorted, hwf.core.perm, hwf.core.hashNodup, hwf.core.txsWf,
      hwf.core.countEq, hwf.core.pwBound, hwf.core.maxBound⟩,
      hwf.lowestEmpty, hwf.lowestLe⟩
  | clear =>
    exact ⟨⟨List.Pairwise.nil, List.Perm.refl _, List.nodup_nil,
      fun t ht => absurd ht (List.not_mem_nil t), rfl, fun _ => U64_pos,
      hwf.core.maxBound⟩, fun _ => rfl, fun t ht => absurd ht (List.not_mem_nil t)⟩

/-- Every reachable state satisfies the queue invariant. -/
theorem reachable_wf {q : PriorityQueue} (h : Reachable q) : WF q := by
  induction h with
  | init mx wl hmax => exact newPriorityQueue_wf mx wl hmax
  | step q1 q2 hq hs ih => exact step_wf ih hs

/-! ### Concrete states used by the scenario theorems and counterexamples -/

/-- C1 scenario: a priority-5 transaction added to a fresh queue. -/
def c1tx : CheckedTransaction := ⟨1, 5, [(WeightCount, 1)]⟩

/-- C1 scenario: the state after adding `c1tx` to `newPriorityQueue 10 []`. -/
def c1q1 : PriorityQueue := ⟨[c1tx], [c1tx], 10, [(WeightCount, 1)], [], 0⟩

/-- C2 scenario transactions: three distinct fingerprints, all priority 7. -/
def c2t1 : CheckedTransaction := ⟨1, 7, [(WeightCount, 1)]⟩

/-- C2 scenario: second priority-7 transaction. -/
def c2t2 : CheckedTransaction := ⟨2, 7, [(WeightCount, 1)]⟩

/-- C2 scenario: third priority-7 transaction. -/
def c2t3 : CheckedTransaction := ⟨3, 7, [(WeightCount, 1)]⟩

/-- C2 scenario: state after admitting `c2t1` with `max_pool_size = 2`. -/
def c2q1 : PriorityQueue := ⟨[c2t1], [c2t1], 2, [(WeightCount, 1)], [], 0⟩

/-- C2 scenario: state after admitting `c2t1` and `c2t2`. -/
def c2q2 : PriorityQueue := ⟨[c2t1, c2t2], [c2t1, c2t2], 2, [(WeightCount, 2)], [], 0⟩

/-- C2 scenario: state after the third add, which evicts `c2t1`. -/
def c2q3 : PriorityQueue := ⟨[c2t2, c2t3], [c2t2, c2t3], 2, [(WeightCount, 2)], [], 7⟩

/-- C3 overflow scenario: first transaction, `consensus_messages` weight
`2 ^ 64 - 1`. -/
def c3t1 : CheckedTransaction :=
  ⟨1, 2, [(WeightCount, 1), (WeightConsensusMessages, U64 - 1)]⟩

/-- C3 overflow scenario: second transaction, same extreme weight. -/
def c3t2 : CheckedTransaction :=
  ⟨2, 1, [(WeightCount, 1), (WeightConsensusMessages, U64 - 1)]⟩

/-- C3 overflow scenario: state after admitting `c3t1` under the limit
`consensus_messages ↦ 2 ^ 64 - 1`. -/
def c3q1 : PriorityQueue :=
  ⟨[c3t1], [c3t1], 10, [(WeightCount, 1), (WeightConsensusMessages, U64 - 1)],
   [(WeightConsensusMessages, U64 - 1)], 0⟩

/-- C3 overflow scenario: state after admitting both transactions; the
pooled `consensus_messages` weight has already wrapped to `2 ^ 64 - 2`. -/
def c3q2 : PriorityQueue :=
  ⟨[c3t2, c3t1], [c3t1, c3t2], 10, [(WeightCount, 2), (WeightConsensusMessages, U64 - 2)],
   [(WeightConsensusMessages, U64 - 1)], 0⟩

/-- C4 / S5 scenario: priority 50, size 90. -/
def c4t1 : CheckedTransaction := ⟨1, 50, [(WeightCount, 1), (WeightSizeBytes, 90)]⟩

/-- C4 / S5 scenario: priority 40, size 30. -/
def c4t2 : CheckedTransaction := ⟨2, 40, [(WeightCount, 1), (WeightSizeBytes, 30)]⟩

/-- C4 / S5 scenario: priority 30, size 20. -/
def c4t3 : CheckedTransaction := ⟨3, 30, [(WeightCount, 1), (WeightSizeBytes, 20)]⟩

/-- C4 / S5 scenario: priority 20, size 5. -/
def c4t4 : CheckedTransaction := ⟨4, 20, [(WeightCount, 1), (WeightSizeBytes, 5)]⟩

/-- C4 / S5 scenario: priority 10, size 5. -/
def c4t5 : CheckedTransaction := ⟨5, 10, [(WeightCount, 1), (WeightSizeBytes, 5)]⟩

/-- C4 / S5 scenario: the weight limits `count ↦ 10, size_bytes ↦ 100`. -/
def c4wl : List (Weight × Nat) := [(WeightCount, 10), (WeightSizeBytes, 100)]

/-- C4 / S5 scenario: state after admitting `c4t1`. -/
def c4q1 : PriorityQueue :=
  ⟨[c4t1], [c4t1], 100, [(WeightCount, 1), (WeightSizeBytes, 90)], c4wl, 0⟩

/-- C4 / S5 scenario: state after admitting `c4t1, c4t2`. -/
def c4q2 : PriorityQueue :=
  ⟨[c4t2, c4t1], [c4t1, c4t2], 100, [(WeightCount, 2), (WeightSizeBytes, 120)], c4wl, 0⟩

/-- C4 / S5 scenario: state after admitting `c4t1 … c4t3`. -/
def c4q3 : PriorityQueue :=
  ⟨[c4t3, c4t2, c4t1], [c4t1, c4t2, c4t3], 100,
   [(WeightCount, 3), (WeightSizeBytes, 140)], c4wl, 0⟩

/-- C4 / S5 scenario: state after admitting `c4t1 … c4t4`. -/
def c4q4 : PriorityQueue :=
  ⟨[c4t4, c4t3, c4t2, c4t1], [c4t1, c4t2, c4t3, c4t4], 100,
   [(WeightCount, 4), (WeightSizeBytes, 145)], c4wl, 0⟩

/-- C4 / S5 scenario: state with all five transactions admitted. -/
def c4q5 : PriorityQueue :=
  ⟨[c4t5, c4t4, c4t3, c4t2, c4t1], [c4t1, c4t2, c4t3, c4t4, c4t5], 100,
   [(WeightCount, 5), (WeightSizeBytes, 150)], c4wl, 0⟩

/-- C5 scenario: priority-10 transaction. -/
def c5t1 : CheckedTransaction := ⟨1, 10, [(WeightCount, 1)]⟩

/-- C5 scenario: priority-20 transaction. -/
def c5t2 : CheckedTransaction := ⟨2, 20, [(WeightCount, 1)]⟩

/-- C5 scenario: priority-30 transaction. -/
def c5t3 : CheckedTransaction := ⟨3, 30, [(WeightCount, 1)]⟩

/-- C5 scenario: the late, low-priority arrival. -/
def c5t4 : CheckedTransaction := ⟨4, 5, [(WeightCount, 1)]⟩

/-- C5 scenario: three transactions admitted under `max_pool_size = 3`. -/
def c5q3 : PriorityQueue :=
  ⟨[c5t1, c5t2, c5t3], [c5t1, c5t2, c5t3], 3, [(WeightCount, 3)], [], 0⟩

/-- C5 scenario: the same pool after `update_max_pool_size(1)`. -/
def c5q4 : PriorityQueue :=
  ⟨[c5t1, c5t2, c5t3], [c5t1, c5t2, c5t3], 1, [(WeightCount, 3)], [], 0⟩

/-- C5 scenario: state after the over-capacity add of `c5t4` went through:
three transactions remain although the cap is 1. -/
def c5q5 : PriorityQueue :=
  ⟨[c5t4, c5t2, c5t3], [c5t2, c5t3, c5t4], 1, [(WeightCount, 3)], [], 5⟩

/-- C7 scenario: a single admitted transaction. -/
def c7tx : CheckedTransaction := ⟨1, 5, [(WeightCount, 1)]⟩

/-- C7 scenario: the queue holding just `c7tx`. -/
def c7q : PriorityQueue := ⟨[c7tx], [c7tx], 10, [(WeightCount, 1)], [], 0⟩

/-- C8 scenario: the initially admitted transaction. -/
def c8t1 : CheckedTransaction := ⟨1, 5, [(WeightCount, 1)]⟩

/-- C8 scenario: the higher-priority arrival into the full pool. -/
def c8t2 : CheckedTransaction := ⟨2, 6, [(WeightCount, 1)]⟩

/-- C8 scenario: pool of capacity 1 holding `c8t1`. -/
def c8q1 : PriorityQueue := ⟨[c8t1], [c8t1], 1, [(WeightCount, 1)], [], 0⟩

/-- C8 scenario: state after `add(c8t2)` evicted `c8t1`. -/
def c8q2 : PriorityQueue := ⟨[c8t2], [c8t2], 1, [(WeightCount, 1)], [], 0⟩

/-- C8 scenario: state after removing `c8t2` again — the pool is empty, not
back to holding `c8t1`. -/
def c8q3 : PriorityQueue := ⟨[], [], 1, [(WeightCount, 0)], [], 0⟩

/-! ### Claim theorems settled by concrete computation -/

/-- C1, counterexample: a successful `add` of a priority-5 transaction into
a previously empty queue leaves `lowest_priority = 0`, not `5`, although
the queue is non-empty and its minimum priority is 5.  The insertion path
only ever lowers `lowest_priority` (`if tx.Priority() < q.lowestPriority`),
so it stays at its zero initial value. -/
theorem c1_lowest_priority_counterexample :
    Add (newPriorityQueue 10 []) c1tx = AddResult.ok c1q1 ∧
    c1q1.priorityIndex ≠ [] ∧
    c1q1.priorityIndex.map CheckedTransaction.priority = [5] ∧
    c1q1.lowestPriority = 0 ∧ (0 : Nat) ≠ 5 := by decide

/-- C2, counterexample: with `max_pool_size = 2`, after admitting two
priority-7 transactions, the third priority-7 add does NOT fail with
PoolFull — it succeeds.  The cached `lowest_priority` is still 0 after the
two inserts (see C1), so `tx.priority ≤ lowest_priority` is `7 ≤ 0`, which
is false, and the add proceeds to evict. -/
theorem c2_equal_priority_counterexample :
    Add (newPriorityQueue 2 []) c2t1 = AddResult.ok c2q1 ∧
    Add c2q1 c2t2 = AddResult.ok c2q2 ∧
    Add c2q2 c2t3 = AddResult.ok c2q3 := by decide

/-- C2, amended: with `max_pool_size = 2`, `add(T1)` and `add(T2)` at
priority 7 succeed, and the third equal-priority add also succeeds,
evicting the admitted transaction with the smallest fingerprint and
leaving T2 and T3 admitted with `lowest_priority` recomputed to 7. -/
theorem c2_equal_priority_amended :
    Add c2q2 c2t3 = AddResult.ok c2q3 ∧
    c2q3.transactions.map CheckedTransaction.hash = [2, 3] ∧
    c2q3.lowestPriority = 7 ∧ Size c2q3 = 2 := by decide

/-- C3, counterexample: with the single weight limit
`consensus_messages ↦ 2 ^ 64 - 1` and two admitted transactions of
`consensus_messages` weight `2 ^ 64 - 1` each, `get_batch(force)` returns
both transactions: the Go `uint64` sum `batchWeight + txW` wraps to
`2 ^ 64 - 2`, which passes the `> limit` overflow test, so the true batch
weight `2 ^ 65 - 2` exceeds the limit. -/
theorem c3_batch_capacity_counterexample :
    Add (newPriorityQueue 10 [(WeightConsensusMessages, U64 - 1)]) c3t1 =
      AddResult.ok c3q1 ∧
    Add c3q1 c3t2 = AddResult.ok c3q2 ∧
    GetBatch c3q2 true = some ([c3t1, c3t2], c3q2) ∧
    alookup c3q2.weightLimits WeightConsensusMessages = some (U64 - 1) ∧
    ¬ (([c3t1, c3t2].map (fun t => txWeight t WeightConsensusMessages)).sum ≤ U64 - 1) := by
  decide

/-- C4 / S5: with limits `count ↦ 10, size_bytes ↦ 100` and the five
transactions of sizes 90, 30, 20, 5, 5 at priorities 50, 40, 30, 20, 10,
`get_batch(force = true)` returns exactly the size-90 and the first size-5
transaction, in that (descending-priority) order, and removes nothing from
the pool. -/
theorem c4_batch_packing_scenario :
    Add (newPriorityQueue 100 c4wl) c4t1 = AddResult.ok c4q1 ∧
    Add c4q1 c4t2 = AddResult.ok c4q2 ∧
    Add c4q2 c4t3 = AddResult.ok c4q3 ∧
    Add c4q3 c4t4 = AddResult.ok c4q4 ∧
    Add c4q4 c4t5 = AddResult.ok c4q5 ∧
    GetBatch c4q5 true = some ([c4t1, c4t4], c4q5) := by decide

/-- C5, counterexample: after three successful adds under
`max_pool_size = 3`, `update_max_pool_size(1)` lowers the cap; the next
add still succeeds (it evicts exactly one element) and leaves
`pool_weights[count] = 3 > 1 = max_pool_size`. -/
theorem c5_capacity_counterexample :
    Add (newPriorityQueue 3 []) c5t1 =
      AddResult.ok ⟨[c5t1], [c5t1], 3, [(WeightCount, 1)], [], 0⟩ ∧
    Add ⟨[c5t1], [c5t1], 3, [(WeightCount, 1)], [], 0⟩ c5t2 =
      AddResult.ok ⟨[c5t1, c5t2], [c5t1, c5t2], 3, [(WeightCount, 2)], [], 0⟩ ∧
    Add ⟨[c5t1, c5t2], [c5t1, c5t2], 3, [(WeightCount, 2)], [], 0⟩ c5t3 =
      AddResult.ok c5q3 ∧
    UpdateMaxPoolSize c5q3 1 = c5q4 ∧
    Add c5q4 c5t4 = AddResult.ok c5q5 ∧
    Size c5q5 = 3 ∧ c5q5.maxTxPoolSize = 1 ∧
    ¬ (aget c5q5.poolWeights WeightCount ≤ c5q5.maxTxPoolSize) := by decide

/-- C7, counterexample: on a queue holding one transaction,
`get_prioritized_batch(none, 0)` returns one transaction, not zero: the
code appends first and only then checks `uint32(len(batch)) >= limit`. -/
theorem c7_limit_zero_counterexample :
    Add (newPriorityQueue 10 []) c7tx = AddResult.ok c7q ∧
    GetPrioritizedBatch c7q none 0 = some ([c7tx], c7q) ∧
    ¬ ([c7tx].length ≤ 0) := by decide

/-- C8, counterexample: starting from a pool of capacity 1 already holding
`c8t1`, `add(c8t2)` succeeds by evicting `c8t1`; the subsequent
`remove_batch([c8t2.fingerprint])` leaves the pool empty, not in its
pre-add state (which held `c8t1`). -/
theorem c8_add_remove_counterexample :
    Add (newPriorityQueue 1 []) c8t1 = AddResult.ok c8q1 ∧
    Add c8q1 c8t2 = AddResult.ok c8q2 ∧
    RemoveTxBatch c8q2 [2] = some c8q3 ∧
    c8q3.transactions ≠ c8q1.transactions := by decide

/-- C10: `clear` resets both indices, the pool weights and the cached
minimum to their initial values while keeping `max_pool_size` and
`weight_limits`: the cleared state is exactly a freshly constructed queue
with the same configuration. -/
theorem c10_clear_frame (q : PriorityQueue) :
    Clear q = newPriorityQueue q.maxTxPoolSize q.weightLimits := rfl

/-- C6: whenever `add` returns an error (PoolFull, Oversize or Duplicate),
the returned state is exactly the state before the call — every error
return in the Go code happens before the first mutation. -/
theorem c6_add_error_atomic (q : PriorityQueue) (tx : CheckedTransaction)
    (e : AddError) (q2 : PriorityQueue)
    (h : Add q tx = AddResult.rejected e q2) : q2 = q :=
  add_rejected_eq q tx e q2 h

/-- C1, amended: after every public operation (over all reachable states,
with transactions satisfying the source contract), the cached
`lowest_priority` is 0 on an empty queue and a lower bound on every
admitted priority on a non-empty queue; it is not in general the exact
minimum (see the counterexample). -/
theorem c1_lowest_priority_amended (q : PriorityQueue) (h : Reachable q) :
    (q.priorityIndex = [] → q.lowestPriority = 0) ∧
    (∀ t ∈ q.priorityIndex, q.lowestPriority ≤ t.priority) :=
  ⟨(reachable_wf h).lowestEmpty, (reachable_wf h).lowestLe⟩

/-- C1 witness: the amended claim evaluated on the concrete reachable state
holding one priority-5 transaction. -/
theorem c1_lowest_priority_amended_witness :
    (c1q1.priorityIndex = [] → c1q1.lowestPriority = 0) ∧
    (∀ t ∈ c1q1.priorityIndex, c1q1.lowestPriority ≤ t.priority) :=
  c1_lowest_priority_amended c1q1
    (Reachable.step _ _ (Reachable.init 10 [] (by decide))
      (Step.addOk _ _ c1tx ⟨by decide, by decide⟩ (by decide)))

/-- C9: over all reachable states (transactions supplied to `add` carry
`weights[count] = 1` and map-backed weight vectors), the hash index, the
priority index and `pool_weights[count]` agree in size, and the
size-inconsistency panic branches are unreachable: `Add` never returns
`panicked`, and the common removal path (hence `remove_batch`,
`get_batch` and `get_prioritized_batch`) never panics. -/
theorem c9_size_consistency (q : PriorityQueue) (h : Reachable q) :
    q.transactions.length = q.priorityIndex.length ∧
    aget q.poolWeights WeightCount = q.transactions.length ∧
    (∀ tx, wfTx tx → Add q tx ≠ AddResult.panicked) ∧
    (∀ hs, RemoveTxBatch q hs ≠ none) ∧
    (∀ force, GetBatch q force ≠ none) ∧
    (∀ offset limit, GetPrioritizedBatch q offset limit ≠ none) := by
  have hwf := reachable_wf h
  refine ⟨hwf.core.perm.length_eq, hwf.core.countEq, ?_, ?_, ?_, ?_⟩
  · intro tx htx hpan
    rcases Add_wf q tx hwf htx with ⟨e, he⟩ | ⟨q2, he, _⟩ <;>
      rw [he] at hpan <;> cases hpan
  · intro hs hnone
    obtain ⟨q2, heq, _, _, _⟩ := RemoveTxBatch_wf q hs hwf
    rw [heq] at hnone
    cases hnone
  · intro force hnone
    obtain ⟨b, q2, heq, _, _, _⟩ := GetBatch_wf q force hwf
    rw [heq] at hnone
    cases hnone
  · intro offset limit hnone
    obtain ⟨b, q2, heq, _, _, _⟩ := GetPrioritizedBatch_wf q offset limit hwf
    rw [heq] at hnone
    cases hnone

/-- C9 witness: the size equalities and the panic-freedom conjuncts
evaluated on a fresh queue with concrete arguments. -/
theorem c9_size_consistency_witness :
    (newPriorityQueue 5 []).transactions.length
        = (newPriorityQueue 5 []).priorityIndex.length ∧
    Add (newPriorityQueue 5 []) ⟨1, 3, [(WeightCount, 1)]⟩ ≠ AddResult.panicked ∧
    RemoveTxBatch (newPriorityQueue 5 []) [7] ≠ none ∧
    GetBatch (newPriorityQueue 5 []) true ≠ none ∧
    GetPrioritizedBatch (newPriorityQueue 5 []) none 2 ≠ none := by
  have h := c9_size_consistency (newPriorityQueue 5 [])
    (Reachable.init 5 [] (by decide))
  exact ⟨h.1, h.2.2.1 _ ⟨by decide, by decide⟩, h.2.2.2.1 [7],
    h.2.2.2.2.1 true, h.2.2.2.2.2 none 2⟩

/-- C5, amended: if the pool is strictly within capacity before the call
and the transaction carries the contractual `weights[count] = 1`, a
successful `add` keeps `pool_weights[count] ≤ max_pool_size`. -/
theorem c5_capacity_amended (q : PriorityQueue) (tx : CheckedTransaction)
    (q2 : PriorityQueue) (hnd : (tx.weights.map Prod.fst).Nodup)
    (hcnt : txWeight tx WeightCount = 1)
    (hroom : aget q.poolWeights WeightCount < q.maxTxPoolSize)
    (h : Add q tx = AddResult.ok q2) :
    aget q2.poolWeights WeightCount ≤ q2.maxTxPoolSize := by
  have hlu : alookup tx.weights WeightCount = some 1 := wfTx_count_lookup ⟨hnd, hcnt⟩
  simp only [Add] at h
  split at h
  · exact AddResult.noConfusion h
  · split at h
    · exact AddResult.noConfusion h
    · split at h
      next heq => exact AddResult.noConfusion h
      next q1 heq =>
        rw [if_neg (not_le.mpr hroom)] at heq
        injection heq with heq2
        subst heq2
        rw [ite_eq_iff] at h
        rcases h with ⟨hC, h⟩ | ⟨hC, h⟩
        · injection h with h2
          rw [← h2]
          split
          · show aget (addWeights q.poolWeights tx.weights) WeightCount
              ≤ q.maxTxPoolSize
            rw [aget_addWeights_some _ _ _ 1 hnd hlu]
            calc uadd (aget q.poolWeights WeightCount) 1
                ≤ aget q.poolWeights WeightCount + 1 := uadd_le _ _
              _ ≤ q.maxTxPoolSize := hroom
          · show aget (addWeights q.poolWeights tx.weights) WeightCount
              ≤ q.maxTxPoolSize
            rw [aget_addWeights_some _ _ _ 1 hnd hlu]
            calc uadd (aget q.poolWeights WeightCount) 1
                ≤ aget q.poolWeights WeightCount + 1 := uadd_le _ _
              _ ≤ q.maxTxPoolSize := hroom
        · exact AddResult.noConfusion h

/-- C5 witness: the amended claim evaluated on a fresh queue of capacity 5
receiving a priority-4 transaction. -/
theorem c5_capacity_amended_witness :
    aget (⟨[⟨1, 4, [(WeightCount, 1)]⟩], [⟨1, 4, [(WeightCount, 1)]⟩], 5,
        [(WeightCount, 1)], [], 0⟩ : PriorityQueue).poolWeights WeightCount ≤
      (⟨[⟨1, 4, [(WeightCount, 1)]⟩], [⟨1, 4, [(WeightCount, 1)]⟩], 5,
        [(WeightCount, 1)], [], 0⟩ : PriorityQueue).maxTxPoolSize :=
  c5_capacity_amended (newPriorityQueue 5 []) ⟨1, 4, [(WeightCount, 1)]⟩ _
    (by decide) (by decide) (by decide) (by decide)

/-- C7, amended: for every queue state with a sorted priority index and
every `uint32` limit, `get_prioritized_batch(offset, limit)` returns at
most `max(limit, 1)` transactions — the post-append check lets one
transaction through when `limit = 0` — and the result is sorted in
non-increasing priority order. -/
theorem c7_prioritized_batch_amended (q : PriorityQueue) (offset : Option Nat)
    (limit : Nat) (b : List CheckedTransaction) (q2 : PriorityQueue)
    (hsort : q.priorityIndex.Pairwise ItemLt) (hlim : limit < 2 ^ 32)
    (h : GetPrioritizedBatch q offset limit = some (b, q2)) :
    b.length ≤ max limit 1 ∧ b.Pairwise (fun a c => c.priority ≤ a.priority) := by
  cases offset with
  | none =>
    simp only [GetPrioritizedBatch] at h
    cases hr : removeTxsLocked q
        (gpbLoop none limit q.weightLimits q.priorityIndex.reverse [] []).2 with
    | none =>
      rw [hr] at h
      exact absurd h (by simp)
    | some q3 =>
      rw [hr] at h
      have h2 : some ((gpbLoop none limit q.weightLimits
          q.priorityIndex.reverse [] []).1, q3) = some (b, q2) := h
      injection h2 with h3
      have hb : (gpbLoop none limit q.weightLimits
          q.priorityIndex.reverse [] []).1 = b := congrArg Prod.fst h3
      rw [← hb]
      exact gpbLoop_result_shape none limit q.weightLimits q.priorityIndex.reverse
        hlim (List.pairwise_reverse.mpr hsort)
  | some o =>
    simp only [GetPrioritizedBatch] at h
    cases hf : q.transactions.find? (fun t => t.hash == o) with
    | none =>
      rw [hf] at h
      have h2 : some (([] : List CheckedTransaction), q) = some (b, q2) := h
      injection h2 with h3
      have hb : b = [] := (congrArg Prod.fst h3).symm
      subst hb
      refine ⟨by simp, List.Pairwise.nil⟩
    | some offItem =>
      rw [hf] at h
      have h2 : (match removeTxsLocked q (gpbLoop (some o) limit q.weightLimits
          ((q.priorityIndex.filter (fun i2 => !decide (ItemLt offItem i2))).reverse)
          [] []).2 with
        | some q3 => some ((gpbLoop (some o) limit q.weightLimits
            ((q.priorityIndex.filter (fun i2 => !decide (ItemLt offItem i2))).reverse)
            [] []).1, q3)
        | none => none) = some (b, q2) := h
      cases hr : removeTxsLocked q (gpbLoop (some o) limit q.weightLimits
          ((q.priorityIndex.filter (fun i2 => !decide (ItemLt offItem i2))).reverse)
          [] []).2 with
      | none =>
        rw [hr] at h2
        exact absurd h2 (by simp)
      | some q3 =>
        rw [hr] at h2
        injection h2 with h3
        have hb : (gpbLoop (some o) limit q.weightLimits
            ((q.priorityIndex.filter (fun i2 => !decide (ItemLt offItem i2))).reverse)
            [] []).1 = b := congrArg Prod.fst h3
        rw [← hb]
        exact gpbLoop_result_shape (some o) limit q.weightLimits _ hlim
          (List.pairwise_reverse.mpr (hsort.filter _))

/-- C7 witness: the amended claim evaluated on a concrete one-transaction
queue with limit 3. -/
theorem c7_prioritized_batch_amended_witness :
    ([(⟨1, 5, [(WeightCount, 1)]⟩ : CheckedTransaction)].length ≤ max 3 1) ∧
    ([(⟨1, 5, [(WeightCount, 1)]⟩ : CheckedTransaction)].Pairwise
      (fun a c => c.priority ≤ a.priority)) :=
  c7_prioritized_batch_amended
    ⟨[⟨1, 5, [(WeightCount, 1)]⟩], [⟨1, 5, [(WeightCount, 1)]⟩], 10,
      [(WeightCount, 1)], [], 0⟩
    none 3 [⟨1, 5, [(WeightCount, 1)]⟩]
    ⟨[⟨1, 5, [(WeightCount, 1)]⟩], [⟨1, 5, [(WeightCount, 1)]⟩], 10,
      [(WeightCount, 1)], [], 0⟩
    (by decide) (by decide) (by decide)

/-- C3, amended: for every queue state and every configured dimension, the
batch returned by `get_batch` respects the weight limit provided the true
sum of the batch weights in that dimension does not overflow `uint64`
(the Go overflow test `batchWeight + txW > limit` is computed modulo
`2 ^ 64`, so the guarantee holds for the wrapped sum only). -/
theorem c3_batch_capacity_amended (q : PriorityQueue) (force : Bool) (w : Weight)
    (l : Nat) (b : List CheckedTransaction) (q2 : PriorityQueue)
    (hwl : alookup q.weightLimits w = some l)
    (htx : ∀ t ∈ q.priorityIndex, (t.weights.map Prod.fst).Nodup)
    (h : GetBatch q force = some (b, q2))
    (hnov : (b.map (fun t => txWeight t w)).sum < U64) :
    (b.map (fun t => txWeight t w)).sum ≤ l := by
  simp only [GetBatch] at h
  by_cases hr : (!q.weightLimits.any (fun p => decide (aget q.poolWeights p.1 ≥ p.2))
      && !force) = true
  · rw [if_pos hr] at h
    have h2 : some (([] : List CheckedTransaction), q) = some (b, q2) := h
    injection h2 with h3
    have hb : b = [] := (congrArg Prod.fst h3).symm
    subst hb
    simp
  · rw [if_neg hr] at h
    have hbw0 : alookup (q.weightLimits.map (fun p => (p.1, 0))) w = some 0 :=
      alookup_map_zero q.weightLimits w l hwl
    have hkey := gbLoop_sum_le w l q.weightLimits hwl q.priorityIndex.reverse []
      (q.weightLimits.map (fun p => (p.1, 0))) [] 0
      (fun t ht => htx t (List.mem_reverse.mp ht)) hbw0 (by simp) (Nat.zero_le _)
    cases hrem : removeTxsLocked q (gbLoop q.weightLimits q.priorityIndex.reverse
        [] (q.weightLimits.map (fun p => (p.1, 0))) []).2 with
    | none =>
      rw [hrem] at h
      exact absurd h (by simp)
    | some q3 =>
      rw [hrem] at h
      have h2 : some ((gbLoop q.weightLimits q.priorityIndex.reverse []
          (q.weightLimits.map (fun p => (p.1, 0))) []).1, q3) = some (b, q2) := h
      injection h2 with h3
      have hb : (gbLoop q.weightLimits q.priorityIndex.reverse []
          (q.weightLimits.map (fun p => (p.1, 0))) []).1 = b := congrArg Prod.fst h3
      rw [hb] at hkey
      rwa [Nat.mod_eq_of_lt hnov] at hkey

/-- C3 witness: the amended claim evaluated on a concrete single-transaction
queue with a `consensus_messages` limit of 5 and weight 3. -/
theorem c3_batch_capacity_amended_witness :
    ([(⟨1, 2, [(WeightCount, 1), (WeightConsensusMessages, 3)]⟩ :
        CheckedTransaction)].map
      (fun t => txWeight t WeightConsensusMessages)).sum ≤ 5 :=
  c3_batch_capacity_amended
    ⟨[⟨1, 2, [(WeightCount, 1), (WeightConsensusMessages, 3)]⟩],
     [⟨1, 2, [(WeightCount, 1), (WeightConsensusMessages, 3)]⟩], 10,
     [(WeightCount, 1), (WeightConsensusMessages, 3)],
     [(WeightConsensusMessages, 5)], 0⟩
    true WeightConsensusMessages 5
    [⟨1, 2, [(WeightCount, 1), (WeightConsensusMessages, 3)]⟩]
    ⟨[⟨1, 2, [(WeightCount, 1), (WeightConsensusMessages, 3)]⟩],
     [⟨1, 2, [(WeightCount, 1), (WeightConsensusMessages, 3)]⟩], 10,
     [(WeightCount, 1), (WeightConsensusMessages, 3)],
     [(WeightConsensusMessages, 5)], 0⟩
    (by decide) (by decide) (by decide) (by decide)

/-- C8, amended: on a well-formed state strictly below capacity, a
successful `add(tx)` followed by `remove_batch([tx.fingerprint])` restores
the pool: both indices are exactly as before, `pool_weights` is restored
pointwise, the configuration is unchanged, and `lowest_priority` is
recomputed from the index minimum.  (At capacity the round trip fails
because the add evicts a victim; see the counterexample.) -/
theorem c8_add_remove_amended (q : PriorityQueue) (tx : CheckedTransaction)
    (q2 : PriorityQueue) (hwf : WF q) (htx : wfTx tx)
    (hroom : Size q < q.maxTxPoolSize)
    (h : Add q tx = AddResult.ok q2) :
    ∃ q3, RemoveTxBatch q2 [tx.hash] = some q3 ∧
      q3.transactions = q.transactions ∧
      q3.priorityIndex = q.priorityIndex ∧
      (∀ k, aget q3.poolWeights k = aget q.poolWeights k) ∧
      q3.maxTxPoolSize = q.maxTxPoolSize ∧
      q3.weightLimits = q.weightLimits ∧
      q3.lowestPriority = (match q.priorityIndex.head? with
        | some t => t.priority
        | none => 0) := by
  simp only [Add] at h
  split at h
  · exact AddResult.noConfusion h
  · split at h
    next e2 heq2 => exact AddResult.noConfusion h
    next heq2 =>
      split at h
      next heqp => exact AddResult.noConfusion h
      next q1 heqp =>
        have hroom2 : aget q.poolWeights WeightCount < q.maxTxPoolSize := hroom
        rw [if_neg (not_le.mpr hroom2)] at heqp
        injection heqp with heqp2
        subst heqp2
        obtain ⟨hov, hdup⟩ := checkTx_none_facts q tx heq2
        have hfresh : ∀ t ∈ q.transactions, t.hash ≠ tx.hash := by
          intro t ht he
          have hany : q.transactions.any (fun t2 => t2.hash == tx.hash) = true :=
            List.any_eq_true.mpr ⟨t, ht, by simpa using he⟩
          rw [hdup] at hany
          cases hany
        have hms : mapSet q.transactions tx = q.transactions ++ [tx] :=
          mapSet_append _ _ hdup
        rw [ite_eq_iff] at h
        rcases h with ⟨hC, h⟩ | ⟨hC, h⟩
        · injection h with h2
          refine c8_helper q q2 tx hwf htx hfresh ?_ ?_ ?_ ?_ ?_
          · rw [← h2]; split <;> rfl
          · rw [← h2]; split <;> exact hms
          · rw [← h2]; split <;> rfl
          · rw [← h2]; split <;> rfl
          · rw [← h2]; split <;> rfl
        · exact AddResult.noConfusion h

/-- C8 witness: the amended round trip evaluated on a fresh queue of
capacity 5 receiving and then removing a priority-4 transaction. -/
theorem c8_add_remove_amended_witness :
    ∃ q3, RemoveTxBatch
        (⟨[⟨1, 4, [(WeightCount, 1)]⟩], [⟨1, 4, [(WeightCount, 1)]⟩], 5,
          [(WeightCount, 1)], [], 0⟩ : PriorityQueue)
        [(⟨1, 4, [(WeightCount, 1)]⟩ : CheckedTransaction).hash] = some q3 ∧
      q3.transactions = (newPriorityQueue 5 []).transactions ∧
      q3.priorityIndex = (newPriorityQueue 5 []).priorityIndex ∧
      (∀ k, aget q3.poolWeights k = aget (newPriorityQueue 5 []).poolWeights k) ∧
      q3.maxTxPoolSize = (newPriorityQueue 5 []).maxTxPoolSize ∧
      q3.weightLimits = (newPriorityQueue 5 []).weightLimits ∧
      q3.lowestPriority = (match (newPriorityQueue 5 []).priorityIndex.head? with
        | some t => t.priority
        | none => 0) :=
  c8_add_remove_amended (newPriorityQueue 5 []) ⟨1, 4, [(WeightCount, 1)]⟩
    ⟨[⟨1, 4, [(WeightCount, 1)]⟩], [⟨1, 4, [(WeightCount, 1)]⟩], 5,
      [(WeightCount, 1)], [], 0⟩
    (newPriorityQueue_wf 5 [] (by decide)) ⟨by decide, by decide⟩
    (by decide) (by decide)

/-- C6 witness: a concrete PoolFull rejection (capacity 0, priority 0
arrival) returns the untouched queue. -/
theorem c6_add_error_atomic_witness :
    Add (newPriorityQueue 0 []) ⟨1, 0, [(WeightCount, 1)]⟩ =
      AddResult.rejected AddError.poolFull (newPriorityQueue 0 []) ∧
    newPriorityQueue 0 [] = newPriorityQueue 0 [] :=
  ⟨by decide,
   c6_add_error_atomic (newPriorityQueue 0 []) ⟨1, 0, [(WeightCount, 1)]⟩
     AddError.poolFull (newPriorityQueue 0 []) (by decide)⟩

end OasisTxPool
